import Mathlib

/-!
Verification of the second-order-cone (SOC) operations engine exercised by
`examples/interface/SOC.py`.  The driver script partitions a flat vector into
cone blocks `(x0, x_rest)` described by `orders`/`firstInds` metadata and calls
the kernel operations `SOCDets`, `SOCBroadcast`, `NumNonSOC`, `SOCSquareRoot`,
`SOCInverse`, `SOCApply`, `SOCApplyQuadratic`, `SOCNesterovTodd` and
`MaxStepInSOC`.  We embed the per-block Jordan-algebra kernel and the flat
dispatch layer and prove the stated contracts.
-/

namespace SOC

/-- Modelled from the spec: the error taxonomy of the cone kernel
(`DomainError`, `SingularError`, `MalformedPartitionError`); the kernel
itself is external to the visible source. -/
inductive KernelError where
  | domainError
  | singularError
  | malformedPartitionError
  deriving DecidableEq, Repr

/-- Modelled from the spec: a single cone block `(x0, x_rest)`:
scalar part `x0` and vector part `x_rest` of length `m`
(a block of order `m + 1`). -/
structure Blk (α : Type) (m : ℕ) where
  x0 : α
  xR : Fin m → α

@[ext] theorem Blk.ext' {α : Type} {m : ℕ} {x y : Blk α m}
    (h0 : x.x0 = y.x0) (hR : ∀ i, x.xR i = y.xR i) : x = y := by
  cases x; cases y; simp only [Blk.mk.injEq]
  exact ⟨h0, funext hR⟩

/-- Dot product of the vector parts. -/
def dotR {α : Type} [CommRing α] {m : ℕ} (u v : Fin m → α) : α :=
  ∑ i, u i * v i

/-- Squared norm of a vector part. -/
def nsqR {α : Type} [CommRing α] {m : ℕ} (u : Fin m → α) : α := dotR u u

/-- Full dot product over a block (scalar part included). -/
def dotB {α : Type} [CommRing α] {m : ℕ} (x y : Blk α m) : α :=
  x.x0 * y.x0 + dotR x.xR y.xR

/-- Modelled from the spec: the Jordan determinant of a block,
`det (x0, x_rest) = x0^2 - ||x_rest||^2`. -/
def det {α : Type} [CommRing α] {m : ℕ} (x : Blk α m) : α :=
  x.x0 ^ 2 - nsqR x.xR

/-- The per-block Jordan identity element `e = (1, 0, ..., 0)`. -/
def eB {α : Type} [CommRing α] {m : ℕ} : Blk α m := ⟨1, fun _ => 0⟩

/-- Modelled from the spec: the Jordan product `x ○ y`:
`(x ○ y)_0 = x · y` (full dot product) and
`(x ○ y)_rest = x0 * y_rest + y0 * x_rest`. -/
def socApply {α : Type} [CommRing α] {m : ℕ} (x y : Blk α m) : Blk α m :=
  ⟨dotB x y, fun i => x.x0 * y.xR i + y.x0 * x.xR i⟩

/-- Modelled from the spec: the per-block inverse, closed form
`z = (x0, -x_rest) / det x`, failing with `SingularError` when `det x = 0`. -/
def socInverse {α : Type} [LinearOrderedField α] {m : ℕ} (x : Blk α m) :
    Except KernelError (Blk α m) :=
  if det x = 0 then Except.error KernelError.singularError
  else Except.ok ⟨x.x0 / det x, fun i => -x.xR i / det x⟩

/-- Modelled from the spec: the quadratic representation
`Q_w(x) = 2 (w·x) w - det w * reflect x`, where `reflect` negates the
vector part. -/
def quadRep {α : Type} [CommRing α] {m : ℕ} (w x : Blk α m) : Blk α m :=
  ⟨2 * dotB w x * w.x0 - det w * x.x0,
   fun i => 2 * dotB w x * w.xR i + det w * x.xR i⟩

section DotLemmas

variable {α : Type} [CommRing α] {m : ℕ}

theorem dotR_comm (u v : Fin m → α) : dotR u v = dotR v u := by
  unfold dotR; exact Finset.sum_congr rfl (fun i _ => mul_comm _ _)

theorem dotR_comb2_right (u a b : Fin m → α) (p q : α) :
    dotR u (fun i => p * a i + q * b i) = p * dotR u a + q * dotR u b := by
  unfold dotR
  rw [Finset.mul_sum, Finset.mul_sum, ← Finset.sum_add_distrib]
  exact Finset.sum_congr rfl (fun i _ => by ring)

theorem dotR_mul_right (u a : Fin m → α) (p : α) :
    dotR u (fun i => p * a i) = p * dotR u a := by
  unfold dotR
  rw [Finset.mul_sum]
  exact Finset.sum_congr rfl (fun i _ => by ring)

theorem nsqR_comb2 (a b : Fin m → α) (p q : α) :
    nsqR (fun i => p * a i + q * b i) =
      p ^ 2 * nsqR a + 2 * (p * q) * dotR a b + q ^ 2 * nsqR b := by
  unfold nsqR dotR
  rw [Finset.mul_sum, Finset.mul_sum, Finset.mul_sum, ← Finset.sum_add_distrib,
    ← Finset.sum_add_distrib]
  exact Finset.sum_congr rfl (fun i _ => by ring)

end DotLemmas

theorem nsqR_nonneg {β : Type} [LinearOrderedCommRing β] {m : ℕ} (u : Fin m → β) :
    (0 : β) ≤ nsqR u := by
  unfold nsqR dotR
  exact Finset.sum_nonneg (fun i _ => mul_self_nonneg (u i))

theorem dotR_divneg_self {α : Type} [LinearOrderedField α] {m : ℕ}
    (u : Fin m → α) (c : α) :
    dotR u (fun i => -u i / c) = -nsqR u / c := by
  unfold nsqR dotR
  calc ∑ i, u i * (-u i / c) = ∑ i, -(u i * u i) / c :=
        Finset.sum_congr rfl (fun i _ => by ring)
    _ = (∑ i, -(u i * u i)) / c := by rw [Finset.sum_div]
    _ = -(∑ i, u i * u i) / c := by rw [Finset.sum_neg_distrib]

section Inverse

variable {α : Type} [LinearOrderedField α] {m : ℕ}

/-- C2 (amended): for every cone block `x` with `det x ≠ 0`, `Inverse x`
returns `z = (x0, -x_rest) / det x`, which satisfies
`x ○ z = z ○ x = e`; `z` is the unique such element whenever moreover
`x0 ≠ 0` (for `x0 = 0` and vector part of dimension at least two, other
solutions of `x ○ z = e` exist); `Inverse` fails with `SingularError`
exactly when `det x = 0`. -/
theorem socInverse_spec (x : Blk α m) :
    (det x ≠ 0 →
      socInverse x = Except.ok (Blk.mk (x.x0 / det x) (fun i => -x.xR i / det x)) ∧
      socApply x ⟨x.x0 / det x, fun i => -x.xR i / det x⟩ = eB ∧
      socApply ⟨x.x0 / det x, fun i => -x.xR i / det x⟩ x = eB ∧
      (x.x0 ≠ 0 → ∀ z : Blk α m, socApply x z = eB →
        z = ⟨x.x0 / det x, fun i => -x.xR i / det x⟩)) ∧
    (det x = 0 → socInverse x = Except.error KernelError.singularError) := by
  constructor
  · intro hdet
    have hd : det x = x.x0 ^ 2 - nsqR x.xR := rfl
    have hinv : socInverse x =
        Except.ok (Blk.mk (x.x0 / det x) (fun i => -x.xR i / det x)) := by
      unfold socInverse
      rw [if_neg hdet]
    have hdot : dotB x ⟨x.x0 / det x, fun i => -x.xR i / det x⟩ = 1 := by
      show x.x0 * (x.x0 / det x) + dotR x.xR (fun i => -x.xR i / det x) = 1
      rw [dotR_divneg_self]
      field_simp
      rw [hd]
      ring
    have happly : socApply x ⟨x.x0 / det x, fun i => -x.xR i / det x⟩ = eB := by
      apply Blk.ext'
      · exact hdot
      · intro i
        show x.x0 * (-x.xR i / det x) + x.x0 / det x * x.xR i = 0
        field_simp
    have happly' : socApply ⟨x.x0 / det x, fun i => -x.xR i / det x⟩ x = eB := by
      apply Blk.ext'
      · show x.x0 / det x * x.x0 + dotR (fun i => -x.xR i / det x) x.xR = 1
        rw [dotR_comm, ← hdot]
        show _ = x.x0 * (x.x0 / det x) + dotR x.xR fun i => -x.xR i / det x
        ring
      · intro i
        show x.x0 / det x * x.xR i + x.x0 * (-x.xR i / det x) = 0
        field_simp
    refine ⟨hinv, happly, happly', ?_⟩
    · intro hx0 z hz
      have h0 : x.x0 * z.x0 + dotR x.xR z.xR = 1 := congrArg Blk.x0 hz
      have hR : ∀ i, x.x0 * z.xR i + z.x0 * x.xR i = 0 := by
        intro i
        exact congrFun (congrArg Blk.xR hz) i
      have hdotxz : x.x0 * dotR x.xR z.xR = -z.x0 * nsqR x.xR := by
        unfold nsqR dotR
        rw [Finset.mul_sum, Finset.mul_sum]
        refine Finset.sum_congr rfl (fun i _ => ?_)
        have h5 := hR i
        linear_combination x.xR i * h5
      have h3 : x.x0 * (x.x0 * z.x0 + dotR x.xR z.xR) = x.x0 * 1 :=
        congrArg (x.x0 * ·) h0
      have h2 : z.x0 * det x = x.x0 := by
        rw [hd]
        linear_combination h3 - hdotxz
      have hz0 : z.x0 = x.x0 / det x := by
        rw [eq_div_iff hdet]
        exact h2
      apply Blk.ext'
      · exact hz0
      · intro i
        have h5 := hR i
        rw [hz0] at h5
        rw [eq_div_iff hdet]
        refine mul_left_cancel₀ hx0 ?_
        have h6 : x.x0 / det x * x.xR i * det x = x.x0 * x.xR i := by
          field_simp
        linear_combination (det x) * h5 - h6
  · intro hdet
    unfold socInverse
    rw [if_pos hdet]

end Inverse

/-- C2 counterexample: uniqueness of the Jordan inverse fails as soon as the
scalar part vanishes and the vector part has dimension two: for
`x = (0, (1, 0))` (with `det x = -1 ≠ 0`) both `z1 = (0, (1, 0))` and
`z2 = (0, (1, 1))` satisfy `x ○ z = e`, yet `z1 ≠ z2`, so `Inverse` does not
return "the unique `z` with `x ○ z = e`". -/
theorem socInverse_not_unique :
    det (Blk.mk (0 : ℚ) ![1, 0]) ≠ 0 ∧
    socApply (Blk.mk (0 : ℚ) ![1, 0]) (Blk.mk (0 : ℚ) ![1, 0]) = eB ∧
    socApply (Blk.mk (0 : ℚ) ![1, 0]) (Blk.mk (0 : ℚ) ![1, 1]) = eB ∧
    Blk.mk (0 : ℚ) ![1, 0] ≠ Blk.mk (0 : ℚ) ![1, 1] := by
  refine ⟨?_, ?_, ?_, ?_⟩
  · show (0 : ℚ) ^ 2 - nsqR ![1, 0] ≠ 0
    unfold nsqR dotR
    rw [Fin.sum_univ_two]
    norm_num
  · unfold socApply eB dotB dotR
    apply Blk.ext'
    · rw [Fin.sum_univ_two]; norm_num
    · intro i
      fin_cases i <;> norm_num
  · unfold socApply eB dotB dotR
    apply Blk.ext'
    · rw [Fin.sum_univ_two]; norm_num
    · intro i
      fin_cases i <;> norm_num
  · intro h
    have := congrFun (congrArg Blk.xR h) 1
    norm_num at this

/-- C2 witness: the amended inverse theorem evaluated on the concrete block
`x = (3, (1, 2))` over `ℚ`, whose determinant `9 - 5 = 4` is nonzero. -/
theorem socInverse_spec_witness :
    det (Blk.mk (3 : ℚ) ![1, 2]) ≠ 0 ∧
    (socInverse (Blk.mk (3 : ℚ) ![1, 2]) =
        Except.ok (Blk.mk ((3 : ℚ) / det (Blk.mk (3 : ℚ) ![1, 2]))
          (fun i => -(![1, 2] i) / det (Blk.mk (3 : ℚ) ![1, 2]))) ∧
      socApply (Blk.mk (3 : ℚ) ![1, 2])
        ⟨(3 : ℚ) / det (Blk.mk (3 : ℚ) ![1, 2]),
          fun i => -(![1, 2] i) / det (Blk.mk (3 : ℚ) ![1, 2])⟩ = eB ∧
      socApply ⟨(3 : ℚ) / det (Blk.mk (3 : ℚ) ![1, 2]),
          fun i => -(![1, 2] i) / det (Blk.mk (3 : ℚ) ![1, 2])⟩
        (Blk.mk (3 : ℚ) ![1, 2]) = eB ∧
      ((3 : ℚ) ≠ 0 → ∀ z : Blk ℚ 2,
        socApply (Blk.mk (3 : ℚ) ![1, 2]) z = eB →
        z = ⟨(3 : ℚ) / det (Blk.mk (3 : ℚ) ![1, 2]),
          fun i => -(![1, 2] i) / det (Blk.mk (3 : ℚ) ![1, 2])⟩)) := by
  have hdet : det (Blk.mk (3 : ℚ) ![1, 2]) ≠ 0 := by
    show (3 : ℚ) ^ 2 - nsqR ![1, 2] ≠ 0
    unfold nsqR dotR
    rw [Fin.sum_univ_two]
    norm_num
  exact ⟨hdet, (socInverse_spec (Blk.mk (3 : ℚ) ![1, 2])).1 hdet⟩

theorem nsqR_div {m : ℕ} (u : Fin m → ℝ) (c : ℝ) :
    nsqR (fun i => u i / c) = nsqR u / c ^ 2 := by
  unfold nsqR dotR
  rw [Finset.sum_div]
  exact Finset.sum_congr rfl (fun i _ => by ring)

theorem nsqR_eq_zero {m : ℕ} {u : Fin m → ℝ} (h : nsqR u = 0) : ∀ i, u i = 0 := by
  intro i
  unfold nsqR dotR at h
  have := (Finset.sum_eq_zero_iff_of_nonneg
    (fun j _ => mul_self_nonneg (u j))).1 h i (Finset.mem_univ i)
  exact mul_self_eq_zero.1 this

/-- Modelled from the spec: the per-block square root `SOCSquareRoot`.
It requires the block to lie in the *closed* cone (`det x ≥ 0` and `x0 ≥ 0`,
equivalently `x0 ≥ ||x_rest||`) and fails with `DomainError` otherwise.
With `d = sqrt (det x)`, the root is
`y = (sqrt ((x0 + d)/2), x_rest / (2 * sqrt ((x0 + d)/2)))`. -/
noncomputable def socSqrt {m : ℕ} (x : Blk ℝ m) : Except KernelError (Blk ℝ m) :=
  if 0 ≤ det x ∧ 0 ≤ x.x0 then
    Except.ok ⟨Real.sqrt ((x.x0 + Real.sqrt (det x)) / 2),
      fun i => x.xR i / (2 * Real.sqrt ((x.x0 + Real.sqrt (det x)) / 2))⟩
  else Except.error KernelError.domainError

/-- C1: for every cone block `x` in the closed cone (`det x ≥ 0` and `x0 ≥ 0`,
which is equivalent to `x0 ≥ ||x_rest||`), `Sqrt x` succeeds and the result `y`
satisfies `y ○ y = x` and itself lies in the closed cone; if the block violates
`x0 ≥ ||x_rest||`, `Sqrt` fails with `DomainError`. -/
theorem socSqrt_spec {m : ℕ} (x : Blk ℝ m) :
    ((0 ≤ det x ∧ 0 ≤ x.x0) ↔ Real.sqrt (nsqR x.xR) ≤ x.x0) ∧
    (0 ≤ det x ∧ 0 ≤ x.x0 →
      ∃ y : Blk ℝ m, socSqrt x = Except.ok y ∧
        socApply y y = x ∧ 0 ≤ det y ∧ 0 ≤ y.x0) ∧
    (¬ (0 ≤ det x ∧ 0 ≤ x.x0) →
      socSqrt x = Except.error KernelError.domainError) := by
  have hd : det x = x.x0 ^ 2 - nsqR x.xR := rfl
  refine ⟨?_, ?_, ?_⟩
  · constructor
    · rintro ⟨hdet, hx0⟩
      have h1 : nsqR x.xR ≤ x.x0 ^ 2 := by rw [hd] at hdet; linarith
      calc Real.sqrt (nsqR x.xR) ≤ Real.sqrt (x.x0 ^ 2) := Real.sqrt_le_sqrt h1
        _ = x.x0 := Real.sqrt_sq hx0
    · intro h
      have h0 : 0 ≤ x.x0 := le_trans (Real.sqrt_nonneg _) h
      have h1 : nsqR x.xR ≤ x.x0 ^ 2 := by
        have := Real.sq_sqrt (nsqR_nonneg x.xR)
        nlinarith [h, Real.sqrt_nonneg (nsqR x.xR)]
      exact ⟨by rw [hd]; linarith, h0⟩
  · rintro ⟨hdet, hx0⟩
    set d := Real.sqrt (det x) with hdef
    set y0 := Real.sqrt ((x.x0 + d) / 2) with hy0def
    have hdnn : 0 ≤ d := Real.sqrt_nonneg _
    have hd2 : d ^ 2 = det x := Real.sq_sqrt hdet
    have hhalf : 0 ≤ (x.x0 + d) / 2 := by linarith
    have hy02 : y0 ^ 2 = (x.x0 + d) / 2 := Real.sq_sqrt hhalf
    have hy0nn : 0 ≤ y0 := Real.sqrt_nonneg _
    have hok : socSqrt x = Except.ok
        ⟨y0, fun i => x.xR i / (2 * y0)⟩ := by
      unfold socSqrt
      rw [if_pos ⟨hdet, hx0⟩]
    refine ⟨⟨y0, fun i => x.xR i / (2 * y0)⟩, hok, ?_, ?_, hy0nn⟩
    · by_cases hz : y0 = 0
      · have hsum0 : x.x0 + d = 0 := by
          have := hy02
          rw [hz] at this
          nlinarith [this]
        have hx00 : x.x0 = 0 := by linarith
        have hd0 : d = 0 := by linarith
        have hdet0 : det x = 0 := by rw [← hd2, hd0]; ring
        have hnsq0 : nsqR x.xR = 0 := by
          rw [hd, hx00] at hdet0
          linarith [hdet0]
        have hxR : ∀ i, x.xR i = 0 := nsqR_eq_zero hnsq0
        apply Blk.ext'
        · show y0 * y0 + dotR (fun i => x.xR i / (2 * y0))
            (fun i => x.xR i / (2 * y0)) = x.x0
          have : dotR (fun i => x.xR i / (2 * y0)) (fun i => x.xR i / (2 * y0))
              = nsqR (fun i => x.xR i / (2 * y0)) := rfl
          rw [this, nsqR_div]
          have : nsqR x.xR = 0 := hnsq0
          rw [this, hz, hx00]
          norm_num
        · intro i
          show y0 * (x.xR i / (2 * y0)) + y0 * (x.xR i / (2 * y0)) = x.xR i
          rw [hxR i, hz]
          norm_num
      · have hy0pos : 0 < y0 := lt_of_le_of_ne hy0nn (Ne.symm hz)
        have hxd : 0 < x.x0 + d := by nlinarith [hy02, hy0pos]
        have hnsq : nsqR x.xR = x.x0 ^ 2 - d ^ 2 := by rw [hd2, hd]; ring
        apply Blk.ext'
        · show y0 * y0 + dotR (fun i => x.xR i / (2 * y0))
            (fun i => x.xR i / (2 * y0)) = x.x0
          have heq : dotR (fun i => x.xR i / (2 * y0)) (fun i => x.xR i / (2 * y0))
              = nsqR (fun i => x.xR i / (2 * y0)) := rfl
          rw [heq, nsqR_div, hnsq]
          field_simp
          nlinarith [hy02]
        · intro i
          show y0 * (x.xR i / (2 * y0)) + y0 * (x.xR i / (2 * y0)) = x.xR i
          field_simp
          ring
    · by_cases hz : y0 = 0
      · show 0 ≤ y0 ^ 2 - nsqR (fun i => x.xR i / (2 * y0))
        rw [nsqR_div, hy02]
        have hsum0 : x.x0 + d = 0 := by
          have := hy02
          rw [hz] at this
          nlinarith [this]
        have hx00 : x.x0 = 0 := by linarith
        have hd0 : d = 0 := by linarith
        have hdet0 : det x = 0 := by rw [← hd2, hd0]; ring
        have hnsq0 : nsqR x.xR = 0 := by
          rw [hd, hx00] at hdet0
          linarith [hdet0]
        rw [hnsq0, hx00, hd0]
        norm_num
      · have hy0pos : 0 < y0 := lt_of_le_of_ne hy0nn (Ne.symm hz)
        have hxd : 0 < x.x0 + d := by nlinarith [hy02, hy0pos]
        have hnsq : nsqR x.xR = x.x0 ^ 2 - d ^ 2 := by rw [hd2, hd]; ring
        show 0 ≤ y0 ^ 2 - nsqR (fun i => x.xR i / (2 * y0))
        rw [nsqR_div, hy02, hnsq]
        have h4 : (2 * y0) ^ 2 = 2 * (x.x0 + d) := by nlinarith [hy02]
        rw [h4]
        have : (x.x0 ^ 2 - d ^ 2) / (2 * (x.x0 + d)) = (x.x0 - d) / 2 := by
          rw [eq_div_iff (by norm_num : (2:ℝ) ≠ 0)]
          field_simp
          ring
        rw [this]
        linarith
  · intro h
    unfold socSqrt
    rw [if_neg h]

/-- C1 witness: the square-root contract evaluated on the concrete block
`x = (5, (3, 4))`, which lies exactly on the cone boundary
(`det x = 25 - 25 = 0`, `x0 = 5 ≥ 0`). -/
theorem socSqrt_spec_witness :
    (0 ≤ det (Blk.mk (5 : ℝ) ![3, 4]) ∧ 0 ≤ (Blk.mk (5 : ℝ) ![3, 4]).x0) ∧
    ∃ y : Blk ℝ 2, socSqrt (Blk.mk (5 : ℝ) ![3, 4]) = Except.ok y ∧
      socApply y y = Blk.mk (5 : ℝ) ![3, 4] ∧ 0 ≤ det y ∧ 0 ≤ y.x0 := by
  have hhyp : 0 ≤ det (Blk.mk (5 : ℝ) ![3, 4]) ∧ 0 ≤ (Blk.mk (5 : ℝ) ![3, 4]).x0 := by
    constructor
    · show (0:ℝ) ≤ (5:ℝ) ^ 2 - nsqR ![3, 4]
      unfold nsqR dotR
      rw [Fin.sum_univ_two]
      norm_num
    · norm_num
  exact ⟨hhyp, (socSqrt_spec (Blk.mk (5 : ℝ) ![3, 4])).2.1 hhyp⟩

section MoreDotLemmas

variable {α : Type} [CommRing α] {m : ℕ}

theorem dotR_mul_left (u a : Fin m → α) (p : α) :
    dotR (fun i => p * u i) a = p * dotR u a := by
  unfold dotR
  rw [Finset.mul_sum]
  exact Finset.sum_congr rfl (fun i _ => by ring)

theorem dotR_comb2_left (a b u : Fin m → α) (p q : α) :
    dotR (fun i => p * a i + q * b i) u = p * dotR a u + q * dotR b u := by
  unfold dotR
  rw [Finset.mul_sum, Finset.mul_sum, ← Finset.sum_add_distrib]
  exact Finset.sum_congr rfl (fun i _ => by ring)

theorem dotR_self (u : Fin m → α) : dotR u u = nsqR u := rfl

end MoreDotLemmas

/-- Cauchy-Schwarz for vector parts: `(u · v)^2 ≤ ||u||^2 ||v||^2`. -/
theorem dotR_sq_le_nsq_mul_nsq {m : ℕ} (u v : Fin m → ℝ) :
    dotR u v ^ 2 ≤ nsqR u * nsqR v := by
  unfold nsqR dotR
  have h := Finset.sum_mul_sq_le_sq_mul_sq Finset.univ u v
  calc (∑ i, u i * v i) ^ 2 ≤ (∑ i, u i ^ 2) * ∑ i, v i ^ 2 := h
    _ = (∑ i, u i * u i) * ∑ i, v i * v i := by
        rw [Finset.sum_congr rfl (fun i _ => sq (u i)),
          Finset.sum_congr rfl (fun i _ => sq (v i))]

/-- Two blocks strictly inside the cone have positive full dot product. -/
theorem dotB_pos_of_interior {m : ℕ} {s z : Blk ℝ m}
    (hsd : 0 < det s) (hs0 : 0 < s.x0) (hzd : 0 < det z) (hz0 : 0 < z.x0) :
    0 < dotB s z := by
  have hcs := dotR_sq_le_nsq_mul_nsq s.xR z.xR
  have hAs : nsqR s.xR < s.x0 ^ 2 := by
    have : det s = s.x0 ^ 2 - nsqR s.xR := rfl
    linarith [this ▸ hsd]
  have hAz : nsqR z.xR < z.x0 ^ 2 := by
    have : det z = z.x0 ^ 2 - nsqR z.xR := rfl
    linarith [this ▸ hzd]
  have hAB : nsqR s.xR * nsqR z.xR < (s.x0 * z.x0) ^ 2 := by
    nlinarith [nsqR_nonneg s.xR, nsqR_nonneg z.xR]
  have hd2 : dotR s.xR z.xR ^ 2 < (s.x0 * z.x0) ^ 2 := lt_of_le_of_lt hcs hAB
  show 0 < s.x0 * z.x0 + dotR s.xR z.xR
  nlinarith [sq_nonneg (s.x0 * z.x0 + dotR s.xR z.xR), mul_pos hs0 hz0]

/-- `det (y ○ y) = (det y)^2`. -/
theorem det_socApply_self {m : ℕ} (y : Blk ℝ m) :
    det (socApply y y) = det y ^ 2 := by
  show dotB y y ^ 2 - nsqR (fun i => y.x0 * y.xR i + y.x0 * y.xR i) = det y ^ 2
  rw [nsqR_comb2]
  show (y.x0 * y.x0 + dotR y.xR y.xR) ^ 2 -
      (y.x0 ^ 2 * nsqR y.xR + 2 * (y.x0 * y.x0) * dotR y.xR y.xR +
        y.x0 ^ 2 * nsqR y.xR) = (y.x0 ^ 2 - nsqR y.xR) ^ 2
  rw [dotR_self]
  ring

/-- The fundamental square identity `Q_{a ○ a} = Q_a Q_a` of the quadratic
representation. -/
theorem quadRep_sq {m : ℕ} (a v : Blk ℝ m) :
    quadRep (socApply a a) v = quadRep a (quadRep a v) := by
  apply Blk.ext'
  · simp only [quadRep, socApply, dotB, det, nsqR]
    simp only [dotR_comb2_left, dotR_comb2_right, dotR_mul_left, dotR_mul_right]
    ring
  · intro i
    simp only [quadRep, socApply, dotB, det, nsqR]
    simp only [dotR_comb2_left, dotR_comb2_right, dotR_mul_left, dotR_mul_right]
    ring

/-- Cancellation: applying `Q` at the closed-form inverse of `a` undoes `Q_a`. -/
theorem quadRep_inv_cancel {m : ℕ} (a v : Blk ℝ m) (ha : det a ≠ 0) :
    quadRep (Blk.mk (a.x0 / det a) (fun i => -a.xR i / det a)) (quadRep a v) = v := by
  have ha' : a.x0 ^ 2 - dotR a.xR a.xR ≠ 0 := by
    have : det a = a.x0 ^ 2 - dotR a.xR a.xR := rfl
    rwa [this] at ha
  have hblk : (Blk.mk (a.x0 / det a) (fun i => -a.xR i / det a)) =
      Blk.mk (a.x0 / det a) (fun i => (-1 / det a) * a.xR i) := by
    apply Blk.ext'
    · rfl
    · intro i
      ring
  rw [hblk]
  apply Blk.ext'
  · simp only [quadRep, dotB, det, nsqR]
    simp only [dotR_comb2_left, dotR_comb2_right, dotR_mul_left, dotR_mul_right]
    field_simp
    ring
  · intro i
    simp only [quadRep, dotB, det, nsqR]
    simp only [dotR_comb2_left, dotR_comb2_right, dotR_mul_left, dotR_mul_right]
    field_simp
    ring

/-- Modelled from the spec: the Nesterov-Todd scaling point `SOCNesterovTodd`
of `(s, z)`: the cone point `w` satisfying `Q_w s = z`, computed by the
standard closed form on the normalized points `s / sqrt (det s)` and
`z / sqrt (det z)`; fails with `DomainError` unless both blocks are strictly
inside the cone (`det > 0` and scalar part `> 0`). -/
noncomputable def socNesterovTodd {m : ℕ} (s z : Blk ℝ m) :
    Except KernelError (Blk ℝ m) :=
  if 0 < det s ∧ 0 < s.x0 ∧ 0 < det z ∧ 0 < z.x0 then
    Except.ok
      ⟨(z.x0 + Real.sqrt (det z) / Real.sqrt (det s) * s.x0) /
         Real.sqrt (2 * (Real.sqrt (det s) * Real.sqrt (det z) + dotB s z)),
       fun i => (z.xR i - Real.sqrt (det z) / Real.sqrt (det s) * s.xR i) /
         Real.sqrt (2 * (Real.sqrt (det s) * Real.sqrt (det z) + dotB s z))⟩
  else Except.error KernelError.domainError

/-- C6: for `s`, `z` strictly interior per block, with `w = NesterovTodd s z`
(which satisfies the defining scaling relation `Q_w s = z`), the vectors
`ApplyQuadratic (Sqrt w) s` and `ApplyQuadratic (Inverse (Sqrt w)) z` are
equal, block by block. -/
theorem socNesterovTodd_spec {m : ℕ} (s z : Blk ℝ m)
    (hs : 0 < det s ∧ 0 < s.x0) (hz : 0 < det z ∧ 0 < z.x0) :
    ∃ w r ri : Blk ℝ m,
      socNesterovTodd s z = Except.ok w ∧
      quadRep w s = z ∧
      socSqrt w = Except.ok r ∧
      socInverse r = Except.ok ri ∧
      quadRep r s = quadRep ri z := by
  obtain ⟨hsd, hs0⟩ := hs
  obtain ⟨hzd, hz0⟩ := hz
  set σ := Real.sqrt (det s) with hσdef
  set ζ := Real.sqrt (det z) with hζdef
  set τ := Real.sqrt (2 * (σ * ζ + dotB s z)) with hτdef
  have hσpos : 0 < σ := Real.sqrt_pos.2 hsd
  have hζpos : 0 < ζ := Real.sqrt_pos.2 hzd
  have hσ2 : σ ^ 2 = det s := Real.sq_sqrt hsd.le
  have hζ2 : ζ ^ 2 = det z := Real.sq_sqrt hzd.le
  have hP : 0 < dotB s z := dotB_pos_of_interior hsd hs0 hzd hz0
  have hτsq_pos : 0 < 2 * (σ * ζ + dotB s z) := by nlinarith [mul_pos hσpos hζpos]
  have hτpos : 0 < τ := Real.sqrt_pos.2 hτsq_pos
  have hτ2 : τ ^ 2 = 2 * (σ * ζ + dotB s z) := Real.sq_sqrt hτsq_pos.le
  have hσne : σ ≠ 0 := ne_of_gt hσpos
  have hτne : τ ≠ 0 := ne_of_gt hτpos
  set w : Blk ℝ m :=
    ⟨(z.x0 + ζ / σ * s.x0) / τ, fun i => (z.xR i - ζ / σ * s.xR i) / τ⟩ with hwdef
  have hwok : socNesterovTodd s z = Except.ok w := by
    unfold socNesterovTodd
    rw [if_pos ⟨hsd, hs0, hzd, hz0⟩]
  have hwx0 : w.x0 = (z.x0 + ζ / σ * s.x0) / τ := rfl
  have hwxR : w.xR = fun i => (1 / τ) * z.xR i + (-(ζ / σ) / τ) * s.xR i := by
    funext i
    show (z.xR i - ζ / σ * s.xR i) / τ = _
    ring
  have hA : dotR s.xR s.xR = s.x0 ^ 2 - det s := by
    have h : det s = s.x0 ^ 2 - nsqR s.xR := rfl
    rw [h, dotR_self]
    ring
  have hB : dotR z.xR z.xR = z.x0 ^ 2 - det z := by
    have h : det z = z.x0 ^ 2 - nsqR z.xR := rfl
    rw [h, dotR_self]
    ring
  have hD : dotR z.xR s.xR = dotB s z - s.x0 * z.x0 := by
    have h : dotB s z = s.x0 * z.x0 + dotR s.xR z.xR := rfl
    rw [h, dotR_comm]
    ring
  have hdotws : dotB w s = τ / 2 := by
    show w.x0 * s.x0 + dotR w.xR s.xR = τ / 2
    rw [hwx0, hwxR, dotR_comb2_left, hA, hD, ← hσ2]
    field_simp
    linear_combination -(σ ^ 2 * τ ^ 2) * hτ2
  have hdetw : det w = ζ / σ := by
    show w.x0 ^ 2 - nsqR w.xR = ζ / σ
    rw [hwx0, hwxR, nsqR_comb2]
    have hBn : nsqR z.xR = z.x0 ^ 2 - det z := by rw [← dotR_self]; exact hB
    have hAn : nsqR s.xR = s.x0 ^ 2 - det s := by rw [← dotR_self]; exact hA
    rw [hBn, hAn, hD, ← hσ2, ← hζ2]
    field_simp
    linear_combination -(σ ^ 5 * ζ * τ ^ 6) * hτ2
  have hw0pos : 0 < w.x0 := by
    rw [hwx0]
    apply div_pos _ hτpos
    have := mul_pos (div_pos hζpos hσpos) hs0
    linarith
  have hwdet_pos : 0 < det w := by
    rw [hdetw]
    exact div_pos hζpos hσpos
  obtain ⟨r, hrok, hrr, hrdet, hr0⟩ := (socSqrt_spec w).2.1 ⟨hwdet_pos.le, hw0pos.le⟩
  have hdetr2 : det r ^ 2 = det w := by rw [← det_socApply_self r, hrr]
  have hdetr : det r ≠ 0 := by
    intro h0
    rw [h0] at hdetr2
    norm_num at hdetr2
    exact absurd hdetr2.symm (ne_of_gt hwdet_pos)
  obtain ⟨hriok, _, _, _⟩ := (socInverse_spec r).1 hdetr
  have hNT1 : quadRep w s = z := by
    apply Blk.ext'
    · show 2 * dotB w s * w.x0 - det w * s.x0 = z.x0
      rw [hdotws, hdetw, hwx0]
      field_simp
      ring
    · intro i
      show 2 * dotB w s * w.xR i + det w * s.xR i = z.xR i
      rw [hdotws, hdetw]
      show 2 * (τ / 2) * ((z.xR i - ζ / σ * s.xR i) / τ) + ζ / σ * s.xR i = z.xR i
      field_simp
      ring
  have hfinal : quadRep r s =
      quadRep (Blk.mk (r.x0 / det r) (fun i => -r.xR i / det r)) z := by
    have h1 : quadRep (Blk.mk (r.x0 / det r) (fun i => -r.xR i / det r)) z =
        quadRep (Blk.mk (r.x0 / det r) (fun i => -r.xR i / det r)) (quadRep w s) := by
      rw [hNT1]
    rw [h1, ← hrr, quadRep_sq, quadRep_inv_cancel r (quadRep r s) hdetr]
  exact ⟨w, r, Blk.mk (r.x0 / det r) (fun i => -r.xR i / det r),
    hwok, hNT1, hrok, hriok, hfinal⟩

/-- C6 witness: the Nesterov-Todd round-trip evaluated on the concrete
strictly interior blocks `s = (2, (0))`, `z = (3, (0))`. -/
theorem socNesterovTodd_spec_witness :
    ((0 : ℝ) < det (Blk.mk (2 : ℝ) ![0]) ∧ (0 : ℝ) < (Blk.mk (2 : ℝ) ![0]).x0) ∧
    ((0 : ℝ) < det (Blk.mk (3 : ℝ) ![0]) ∧ (0 : ℝ) < (Blk.mk (3 : ℝ) ![0]).x0) ∧
    ∃ w r ri : Blk ℝ 1,
      socNesterovTodd (Blk.mk (2 : ℝ) ![0]) (Blk.mk (3 : ℝ) ![0]) = Except.ok w ∧
      quadRep w (Blk.mk (2 : ℝ) ![0]) = Blk.mk (3 : ℝ) ![0] ∧
      socSqrt w = Except.ok r ∧
      socInverse r = Except.ok ri ∧
      quadRep r (Blk.mk (2 : ℝ) ![0]) = quadRep ri (Blk.mk (3 : ℝ) ![0]) := by
  have h1 : (0 : ℝ) < det (Blk.mk (2 : ℝ) ![0]) ∧ (0 : ℝ) < (Blk.mk (2 : ℝ) ![0]).x0 := by
    constructor
    · show (0:ℝ) < (2:ℝ) ^ 2 - nsqR ![0]
      unfold nsqR dotR
      rw [Fin.sum_univ_one]
      norm_num
    · norm_num
  have h2 : (0 : ℝ) < det (Blk.mk (3 : ℝ) ![0]) ∧ (0 : ℝ) < (Blk.mk (3 : ℝ) ![0]).x0 := by
    constructor
    · show (0:ℝ) < (3:ℝ) ^ 2 - nsqR ![0]
      unfold nsqR dotR
      rw [Fin.sum_univ_one]
      norm_num
    · norm_num
  exact ⟨h1, h2, socNesterovTodd_spec (Blk.mk (2 : ℝ) ![0]) (Blk.mk (3 : ℝ) ![0]) h1 h2⟩

section TreeSum

variable {α : Type} [AddCommMonoid α]

/-- One pairwise-combination pass of a tree reduction. -/
def pairUp : List α → List α
  | [] => []
  | [a] => [a]
  | a :: b :: t => (a + b) :: pairUp t

theorem pairUp_length_le : ∀ l : List α, (pairUp l).length ≤ l.length
  | [] => le_refl _
  | [_] => le_refl _
  | _ :: _ :: t => by
      simp only [pairUp, List.length_cons]
      have := pairUp_length_le t
      omega

theorem pairUp_sum : ∀ l : List α, (pairUp l).sum = l.sum
  | [] => rfl
  | [_] => rfl
  | a :: b :: t => by
      simp only [pairUp, List.sum_cons]
      rw [pairUp_sum t, add_assoc]

/-- Tree (pairwise) reduction of a list, the communication pattern used for
large blocks. -/
def treeSum : List α → α
  | [] => 0
  | [a] => a
  | a :: b :: t => treeSum ((a + b) :: pairUp t)
termination_by l => l.length
decreasing_by
  simp only [List.length_cons]
  have := pairUp_length_le t
  omega

theorem treeSum_eq_sum : ∀ l : List α, treeSum l = l.sum
  | [] => by simp [treeSum]
  | [a] => by simp [treeSum]
  | a :: b :: t => by
      rw [show treeSum (a :: b :: t) = treeSum ((a + b) :: pairUp t) from by
        rw [treeSum]]
      rw [treeSum_eq_sum ((a + b) :: pairUp t)]
      simp only [List.sum_cons]
      rw [pairUp_sum t, add_assoc]
termination_by l => l.length
decreasing_by
  simp only [List.length_cons]
  have := pairUp_length_le t
  omega

/-- Modelled from the spec: the block reduction of the dispatch layer: blocks
of order at most `cutoff` are reduced sequentially (replicate and compute
locally), larger blocks through a pairwise tree reduction; the `cutoff`
choice is purely a performance hint. -/
def socSum (cutoff ord : ℕ) (l : List α) : α :=
  if ord ≤ cutoff then l.sum else treeSum l

theorem socSum_eq_sum (cutoff ord : ℕ) (l : List α) : socSum cutoff ord l = l.sum := by
  unfold socSum
  split
  · rfl
  · exact treeSum_eq_sum l

end TreeSum

section FlatLayer

/-- The vector part of the block starting at `f` of order `ord`, read from the
flat vector: entries `f+1 .. f+ord-1`. -/
def blockRest {α : Type} (x : List α) (f ord : ℕ) : List α :=
  (x.drop (f + 1)).take (ord - 1)

variable {α : Type} [LinearOrderedField α]

/-- Per-block Jordan determinant read from the flat vector at block start `f`,
using the cutoff-selected reduction. -/
def detAt (cutoff : ℕ) (x : List α) (f ord : ℕ) : α :=
  x.getD f 0 ^ 2 - socSum cutoff ord ((blockRest x f ord).map (fun t => t ^ 2))

/-- Sequential reference determinant (plain left-to-right summation). -/
def detSeq (x : List α) (f ord : ℕ) : α :=
  x.getD f 0 ^ 2 - ((blockRest x f ord).map (fun t => t ^ 2)).sum

theorem detAt_eq_detSeq (cutoff : ℕ) (x : List α) (f ord : ℕ) :
    detAt cutoff x f ord = detSeq x f ord := by
  unfold detAt detSeq
  rw [socSum_eq_sum]

/-- Rest-part dot product of two blocks starting at `f`, with the
cutoff-selected reduction. -/
def restDotAt (cutoff : ℕ) (x y : List α) (f ord : ℕ) : α :=
  socSum cutoff ord (List.zipWith (· * ·) (blockRest x f ord) (blockRest y f ord))

theorem restDotAt_eq (cutoff : ℕ) (x y : List α) (f ord : ℕ) :
    restDotAt cutoff x y f ord =
      (List.zipWith (· * ·) (blockRest x f ord) (blockRest y f ord)).sum := by
  unfold restDotAt
  rw [socSum_eq_sum]

/-- Modelled from the spec: `SOCDets`: the result vector concentrates each
block's determinant at its `firstInd` entry; all other entries are zero. -/
def SOCDets (x : List α) (os fs : List ℕ) (cutoff : ℕ) : List α :=
  (List.range x.length).map (fun i =>
    if fs.getD i 0 = i then detAt cutoff x i (os.getD i 0) else 0)

/-- Modelled from the spec: `SOCBroadcast` replicates, for each block, the
value stored at `firstInd` into every entry of that block. -/
def SOCBroadcast (v : List α) (os fs : List ℕ) (cutoff : ℕ) : List α :=
  (List.range v.length).map (fun i => v.getD (fs.getD i 0) 0)

/-- Modelled from the spec: `NumNonSOC`: the number of blocks that are not
strictly inside the open cone (`det ≤ 0` or scalar part `≤ 0`), computed as a
sum of per-entry indicators concentrated at the block starts. -/
def NumNonSOC (x : List α) (os fs : List ℕ) (cutoff : ℕ) : ℕ :=
  ((List.range x.length).map (fun i =>
    if fs.getD i 0 = i ∧
        (detAt cutoff x i (os.getD i 0) ≤ 0 ∨ x.getD i 0 ≤ 0) then 1 else 0)).sum

/-- The list of blocks `(firstInd, order)` described by the descriptor, in
ascending order of `firstInd`. -/
def socBlocks (N : ℕ) (os fs : List ℕ) : List (ℕ × ℕ) :=
  (List.range N).filterMap (fun i =>
    if fs.getD i 0 = i then some (i, os.getD i 0) else none)

/-- Direct sequential recomputation of the non-positive block count: walk the
block list and count the blocks with `det ≤ 0` or nonpositive scalar part. -/
def seqNumNonPos (x : List α) (os fs : List ℕ) : ℕ :=
  ((socBlocks x.length os fs).filter (fun p =>
    decide (detSeq x p.1 p.2 ≤ 0 ∨ x.getD p.1 0 ≤ 0))).length

/-- Modelled from the spec: well-formedness of the cone partition descriptor:
every index lies inside its own block, blocks fit inside the vector, the
order is constant on a block, and the indices sharing a given `firstInd` are
exactly the indices of that block (contiguous cover, no gaps or overlaps). -/
def WellFormedPartition (N : ℕ) (os fs : List ℕ) : Prop :=
  os.length = N ∧ fs.length = N ∧
  ∀ i, i < N →
    fs.getD i 0 ≤ i ∧ i < fs.getD i 0 + os.getD i 0 ∧
    fs.getD i 0 + os.getD i 0 ≤ N ∧
    os.getD (fs.getD i 0) 0 = os.getD i 0 ∧
    (∀ j, j < N → (fs.getD j 0 = fs.getD i 0 ↔
      (fs.getD i 0 ≤ j ∧ j < fs.getD i 0 + os.getD i 0)))

instance (N : ℕ) (os fs : List ℕ) : Decidable (WellFormedPartition N os fs) := by
  unfold WellFormedPartition
  infer_instance

/-- Modelled from the spec: descriptor validation, failing with
`MalformedPartitionError` on a malformed partition. -/
def validatePartition (N : ℕ) (os fs : List ℕ) : Except KernelError Unit :=
  if WellFormedPartition N os fs then Except.ok ()
  else Except.error KernelError.malformedPartitionError

theorem getD_map_range {β : Type} (n : ℕ) (f : ℕ → β) (i : ℕ) (hi : i < n) (d : β) :
    ((List.range n).map f).getD i d = f i := by
  have hlen : ((List.range n).map f).length = n := by simp
  rw [List.getD_eq_getElem ((List.range n).map f) d (by rw [hlen]; exact hi)]
  simp

end FlatLayer

/-- C5: for every cone block `(x0, x_rest)`, `Det` computes
`x0^2 - ||x_rest||^2`, and the result vector concentrates this scalar at the
block's `firstInd` entry while every other entry of the block is zero. -/
theorem SOCDets_spec {α : Type} [LinearOrderedField α] (x : List α)
    (os fs : List ℕ) (cutoff : ℕ) (i : ℕ) (hi : i < x.length) :
    (SOCDets x os fs cutoff).length = x.length ∧
    (fs.getD i 0 = i → (SOCDets x os fs cutoff).getD i 0 =
      x.getD i 0 ^ 2 - ((blockRest x i (os.getD i 0)).map (fun t => t ^ 2)).sum) ∧
    (fs.getD i 0 ≠ i → (SOCDets x os fs cutoff).getD i 0 = 0) := by
  refine ⟨by simp [SOCDets], ?_, ?_⟩
  · intro hfi
    unfold SOCDets
    rw [getD_map_range x.length _ i hi, if_pos hfi, detAt_eq_detSeq]
    rfl
  · intro hfi
    unfold SOCDets
    rw [getD_map_range x.length _ i hi, if_neg hfi]

/-- C5 witness: `Det` on the concrete vector `x = (3, 1, 1)` forming a single
block of order `3`, with a cutoff of `2` so that the tree-reduction path is
exercised: the entry at the block start is `9 - 2 = 7` and the others are `0`. -/
theorem SOCDets_spec_witness :
    (0 < ([3, 1, 1] : List ℚ).length) ∧
    ((SOCDets ([3, 1, 1] : List ℚ) [3, 3, 3] [0, 0, 0] 2).length =
        ([3, 1, 1] : List ℚ).length ∧
      ((0 : ℕ) = 0 → (SOCDets ([3, 1, 1] : List ℚ) [3, 3, 3] [0, 0, 0] 2).getD 0 0 =
        ([3, 1, 1] : List ℚ).getD 0 0 ^ 2 -
          ((blockRest ([3, 1, 1] : List ℚ) 0 3).map (fun t => t ^ 2)).sum) ∧
      ((0 : ℕ) ≠ 0 → (SOCDets ([3, 1, 1] : List ℚ) [3, 3, 3] [0, 0, 0] 2).getD 0 0 = 0)) := by
  have hi : 0 < ([3, 1, 1] : List ℚ).length := by decide
  have h := SOCDets_spec ([3, 1, 1] : List ℚ) [3, 3, 3] [0, 0, 0] 2 0 hi
  have hf : ([0, 0, 0] : List ℕ).getD 0 0 = 0 := by decide
  exact ⟨hi, h.1, fun h0 => hf ▸ h.2.1 hf, fun h0 => absurd rfl h0⟩

/-- C7 (amended): Broadcast replicates, for each block of a well-formed
partition, the value stored at `firstInd` into every entry of that block, and
Broadcast is idempotent on a per-block scalar:
`Broadcast (Broadcast v) = Broadcast v` (the literal spec equation
`Det (Broadcast (Det x)) = Det x` fails for blocks of order greater than one,
see the counterexample). -/
theorem SOCBroadcast_spec {α : Type} [LinearOrderedField α] (v : List α)
    (os fs : List ℕ) (c : ℕ) (hwf : WellFormedPartition v.length os fs) :
    (∀ i, i < v.length →
      (SOCBroadcast v os fs c).getD i 0 = v.getD (fs.getD i 0) 0) ∧
    SOCBroadcast (SOCBroadcast v os fs c) os fs c = SOCBroadcast v os fs c := by
  obtain ⟨hos, hfs, hblk⟩ := hwf
  have hrep : ∀ i, i < v.length →
      (SOCBroadcast v os fs c).getD i 0 = v.getD (fs.getD i 0) 0 := by
    intro i hi
    unfold SOCBroadcast
    rw [getD_map_range v.length _ i hi]
  refine ⟨hrep, ?_⟩
  have hlen : (SOCBroadcast v os fs c).length = v.length := by
    simp [SOCBroadcast]
  show SOCBroadcast (SOCBroadcast v os fs c) os fs c = SOCBroadcast v os fs c
  unfold SOCBroadcast
  rw [List.length_map, List.length_range]
  refine List.map_congr_left ?_
  intro a ha
  have haN : a < v.length := List.mem_range.1 ha
  obtain ⟨h1, h2, h3, h4, h5⟩ := hblk a haN
  have hfa : fs.getD a 0 < v.length := lt_of_le_of_lt h1 haN
  have hff : fs.getD (fs.getD a 0) 0 = fs.getD a 0 :=
    (h5 (fs.getD a 0) hfa).2 ⟨le_refl _, by omega⟩
  rw [getD_map_range v.length _ (fs.getD a 0) hfa, hff]

/-- C7 counterexample: on the single block `x = (2, 0)` of order two
(`orders = [2,2]`, `firstInds = [0,0]`), `Det x = (4, 0)`, broadcasting gives
`(4, 4)`, and `Det` of that is `(4^2 - 4^2, 0) = (0, 0) ≠ (4, 0)`; so the
claimed identity `Det (Broadcast (Det x)) = Det x` is false. -/
theorem SOCDets_broadcast_not_identity :
    SOCDets (SOCBroadcast (SOCDets ([2, 0] : List ℚ) [2, 2] [0, 0] 1000)
        [2, 2] [0, 0] 1000) [2, 2] [0, 0] 1000 ≠
      SOCDets ([2, 0] : List ℚ) [2, 2] [0, 0] 1000 := by
  have hr : List.range 2 = [0, 1] := rfl
  have e1 : SOCDets ([2, 0] : List ℚ) [2, 2] [0, 0] 1000 = [4, 0] := by
    show (List.range 2).map _ = _
    rw [hr]
    norm_num [detAt, blockRest, socSum]
  have e2 : SOCBroadcast ([4, 0] : List ℚ) [2, 2] [0, 0] 1000 = [4, 4] := by
    show (List.range 2).map _ = _
    rw [hr]
    simp
  have e3 : SOCDets ([4, 4] : List ℚ) [2, 2] [0, 0] 1000 = [0, 0] := by
    show (List.range 2).map _ = _
    rw [hr]
    norm_num [detAt, blockRest, socSum]
  rw [e1, e2, e3]
  intro h
  have := congrArg (fun l => l.getD 0 0) h
  norm_num at this

/-- C7 witness: the amended broadcast theorem evaluated on the concrete
vector `v = (1, 2)` over the single block of order two. -/
theorem SOCBroadcast_spec_witness :
    WellFormedPartition ([1, 2] : List ℚ).length [2, 2] [0, 0] ∧
    ((∀ i, i < ([1, 2] : List ℚ).length →
      (SOCBroadcast ([1, 2] : List ℚ) [2, 2] [0, 0] 7).getD i 0 =
        ([1, 2] : List ℚ).getD (([0, 0] : List ℕ).getD i 0) 0) ∧
    SOCBroadcast (SOCBroadcast ([1, 2] : List ℚ) [2, 2] [0, 0] 7) [2, 2] [0, 0] 7 =
      SOCBroadcast ([1, 2] : List ℚ) [2, 2] [0, 0] 7) := by
  have hwf : WellFormedPartition ([1, 2] : List ℚ).length [2, 2] [0, 0] := by decide
  exact ⟨hwf, SOCBroadcast_spec ([1, 2] : List ℚ) [2, 2] [0, 0] 7 hwf⟩

theorem numNonSOC_aux {α : Type} [LinearOrderedField α] (x : List α)
    (os fs : List ℕ) :
    ∀ L : List ℕ,
      (L.map (fun i => if fs.getD i 0 = i ∧
          (detSeq x i (os.getD i 0) ≤ 0 ∨ x.getD i 0 ≤ 0) then 1 else 0)).sum =
      ((L.filterMap (fun i =>
          if fs.getD i 0 = i then some (i, os.getD i 0) else none)).filter
        (fun q => decide (detSeq x q.1 q.2 ≤ 0 ∨ x.getD q.1 0 ≤ 0))).length
  | [] => rfl
  | a :: t => by
      set g : ℕ → Option (ℕ × ℕ) :=
        fun i => if fs.getD i 0 = i then some (i, os.getD i 0) else none with hg
      set p : ℕ × ℕ → Bool :=
        fun q => decide (detSeq x q.1 q.2 ≤ 0 ∨ x.getD q.1 0 ≤ 0) with hp
      by_cases h1 : fs.getD a 0 = a
      · have hsome : g a = some (a, os.getD a 0) := by
          show (if fs.getD a 0 = a then some (a, os.getD a 0) else none) = _
          rw [if_pos h1]
        by_cases h2 : detSeq x a (os.getD a 0) ≤ 0 ∨ x.getD a 0 ≤ 0
        · have hpa : p (a, os.getD a 0) = true := by
            show decide (detSeq x a (os.getD a 0) ≤ 0 ∨ x.getD a 0 ≤ 0) = true
            exact decide_eq_true h2
          rw [List.map_cons, List.sum_cons, if_pos ⟨h1, h2⟩,
            List.filterMap_cons_some hsome,
            List.filter_cons_of_pos hpa, List.length_cons,
            numNonSOC_aux x os fs t, hg, hp]
          omega
        · have hpa : ¬ p (a, os.getD a 0) = true := by
            show ¬ decide (detSeq x a (os.getD a 0) ≤ 0 ∨ x.getD a 0 ≤ 0) = true
            simpa using h2
          rw [List.map_cons, List.sum_cons,
            if_neg (fun hc => h2 hc.2),
            List.filterMap_cons_some hsome,
            List.filter_cons_of_neg hpa,
            numNonSOC_aux x os fs t, hg, hp]
          omega
      · have hnone : g a = none := by
          show (if fs.getD a 0 = a then some (a, os.getD a 0) else none) = none
          rw [if_neg h1]
        rw [List.map_cons, List.sum_cons,
          if_neg (fun hc => h1 hc.1),
          List.filterMap_cons_none hnone,
          numNonSOC_aux x os fs t, hg, hp]
        omega

/-- C4: `NumNonPositive x` equals the number of blocks with `det x ≤ 0` or
scalar part `x0 ≤ 0` (blocks not strictly inside the open cone), computed as a
sum of per-entry indicators reduced over all blocks, and it matches a direct
sequential recomputation of that count over the enumerated blocks. -/
theorem NumNonSOC_spec {α : Type} [LinearOrderedField α] (x : List α)
    (os fs : List ℕ) (c : ℕ) :
    NumNonSOC x os fs c = seqNumNonPos x os fs := by
  unfold NumNonSOC seqNumNonPos socBlocks
  simp only [detAt_eq_detSeq]
  exact numNonSOC_aux x os fs (List.range x.length)

/-- The `orders` metadata vector built by the driver: `Zeros(orders, 15, 1)`
followed by the loop setting entries `i`, `i+5`, `i+10` to `n = 5`. -/
def driverOrders : List ℕ :=
  (List.range 5).foldl
    (fun l i => ((l.set i 5).set (i + 5) 5).set (i + 10) 5)
    (List.replicate 15 0)

/-- The `firstInds` metadata vector built by the driver: `Zeros` followed by
the loop setting entries `i`, `i+5`, `i+10` to `0`, `5`, `10`. -/
def driverFirstInds : List ℕ :=
  (List.range 5).foldl
    (fun l i => ((l.set i 0).set (i + 5) 5).set (i + 10) 10)
    (List.replicate 15 0)

/-- C10: the partition descriptor the driver constructs (with `n = 5`,
`N = 15`) is well-formed: every index `i` has `orders[i] = 5` and
`firstInds[i] = 5 * (i / 5)`, each index lies inside its own block, and the
blocks are exactly the three contiguous, disjoint ranges starting at
`0`, `5`, `10` covering `[0, 15)`; descriptor validation succeeds, so no
`MalformedPartitionError` can arise. -/
theorem driver_descriptor_spec :
    (∀ i, i < 15 →
      driverOrders.getD i 0 = 5 ∧ driverFirstInds.getD i 0 = 5 * (i / 5) ∧
      driverFirstInds.getD i 0 ≤ i ∧
      i < driverFirstInds.getD i 0 + driverOrders.getD i 0) ∧
    WellFormedPartition 15 driverOrders driverFirstInds ∧
    socBlocks 15 driverOrders driverFirstInds = [(0, 5), (5, 5), (10, 5)] ∧
    validatePartition 15 driverOrders driverFirstInds = Except.ok () := by
  refine ⟨by decide, by decide, by decide, ?_⟩
  unfold validatePartition
  rw [if_pos (by decide)]

section FlatOps

variable {α : Type} [LinearOrderedField α]

/-- Modelled from the spec: flat `SOCApply` (Jordan product per block): the
entry at a block start holds the full block dot product, every other entry
holds `x0 * y_i + y0 * x_i`. -/
def SOCApply (x y : List α) (os fs : List ℕ) (cutoff : ℕ) : List α :=
  (List.range x.length).map (fun i =>
    if fs.getD i 0 = i then
      x.getD i 0 * y.getD i 0 + restDotAt cutoff x y i (os.getD i 0)
    else
      x.getD (fs.getD i 0) 0 * y.getD i 0 + y.getD (fs.getD i 0) 0 * x.getD i 0)

/-- Modelled from the spec: flat `SOCApplyQuadratic`,
`Q_w(x) = 2 (w·x) w - det w * reflect x` per block. -/
def SOCApplyQuadratic (w x : List α) (os fs : List ℕ) (cutoff : ℕ) : List α :=
  (List.range x.length).map (fun i =>
    let f := fs.getD i 0
    let ord := os.getD f 0
    let wx := w.getD f 0 * x.getD f 0 + restDotAt cutoff w x f ord
    let dw := detAt cutoff w f ord
    if f = i then 2 * wx * w.getD i 0 - dw * x.getD i 0
    else 2 * wx * w.getD i 0 + dw * x.getD i 0)

/-- Modelled from the spec: flat `SOCInverse`, with a collective validation
pass failing with `SingularError` when some block has zero determinant. -/
def SOCInverse (x : List α) (os fs : List ℕ) (cutoff : ℕ) :
    Except KernelError (List α) :=
  if ∀ i, i < x.length → fs.getD i 0 = i → detAt cutoff x i (os.getD i 0) ≠ 0 then
    Except.ok ((List.range x.length).map (fun i =>
      let f := fs.getD i 0
      let d := detAt cutoff x f (os.getD f 0)
      if f = i then x.getD i 0 / d else -x.getD i 0 / d))
  else Except.error KernelError.singularError

/-- Modelled from the spec: flat `SOCSquareRoot`, with a collective validation
pass failing with `DomainError` when some block leaves the closed cone. -/
noncomputable def SOCSquareRoot (x : List ℝ) (os fs : List ℕ) (cutoff : ℕ) :
    Except KernelError (List ℝ) :=
  if ∀ i, i < x.length → fs.getD i 0 = i →
      0 ≤ detAt cutoff x i (os.getD i 0) ∧ 0 ≤ x.getD i 0 then
    Except.ok ((List.range x.length).map (fun i =>
      let f := fs.getD i 0
      let d := Real.sqrt (detAt cutoff x f (os.getD f 0))
      let y0 := Real.sqrt ((x.getD f 0 + d) / 2)
      if f = i then y0 else x.getD i 0 / (2 * y0)))
  else Except.error KernelError.domainError

/-- Modelled from the spec: flat `SOCNesterovTodd` (closed form per block),
with a collective validation pass failing with `DomainError` when some block
of `s` or `z` is not strictly interior. -/
noncomputable def SOCNesterovTodd (s z : List ℝ) (os fs : List ℕ) (cutoff : ℕ) :
    Except KernelError (List ℝ) :=
  if ∀ i, i < s.length → fs.getD i 0 = i →
      0 < detAt cutoff s i (os.getD i 0) ∧ 0 < s.getD i 0 ∧
      0 < detAt cutoff z i (os.getD i 0) ∧ 0 < z.getD i 0 then
    Except.ok ((List.range s.length).map (fun i =>
      let f := fs.getD i 0
      let ord := os.getD f 0
      let sigma := Real.sqrt (detAt cutoff s f ord)
      let zeta := Real.sqrt (detAt cutoff z f ord)
      let tau := Real.sqrt (2 * (sigma * zeta +
        (s.getD f 0 * z.getD f 0 + restDotAt cutoff s z f ord)))
      if f = i then (z.getD i 0 + zeta / sigma * s.getD i 0) / tau
      else (z.getD i 0 - zeta / sigma * s.getD i 0) / tau))
  else Except.error KernelError.domainError

/-- Modelled from the spec: the per-block step bound of `MaxStepInSOC`: `U`
when the direction block lies in the closed cone, otherwise the smallest
positive root of the boundary quadratic `det(s + alpha z) = a alpha^2 +
2 b alpha + c`, clipped at `U`. -/
noncomputable def stepBlockScal (z0 a b cc U : ℝ) : ℝ :=
  if 0 ≤ z0 ∧ 0 ≤ a then U
  else min U (if a = 0 then cc / (2 * -b) else (-b - Real.sqrt (b ^ 2 - a * cc)) / a)

/-- Modelled from the spec: `MaxStepInSOC`: the minimum over all blocks of the
per-block step bounds, starting from `upperBound`. -/
noncomputable def MaxStepInSOC (s z : List ℝ) (os fs : List ℕ)
    (upperBound : ℝ) (cutoff : ℕ) : ℝ :=
  ((List.range s.length).filter (fun i => fs.getD i 0 == i)).foldl
    (fun acc i => min acc (stepBlockScal (z.getD i 0)
      (detAt cutoff z i (os.getD i 0))
      (s.getD i 0 * z.getD i 0 - restDotAt cutoff s z i (os.getD i 0))
      (detAt cutoff s i (os.getD i 0)) upperBound))
    upperBound

end FlatOps

/-- C8: the cutoff parameter has no semantic effect: for every operation
(`Det`, `Broadcast`, `NumNonPositive`, `Sqrt`, `Inverse`, `Apply`,
`ApplyQuadratic`, `NesterovTodd`, `MaxStep`) and every input, any two cutoff
values produce the same results; the cutoff only selects between the
sequential small-block reduction and the tree-reduction large-block path. -/
theorem cutoff_no_semantic_effect (c1 c2 : ℕ) :
    (∀ (x : List ℝ) (os fs : List ℕ), SOCDets x os fs c1 = SOCDets x os fs c2) ∧
    (∀ (v : List ℝ) (os fs : List ℕ),
      SOCBroadcast v os fs c1 = SOCBroadcast v os fs c2) ∧
    (∀ (x : List ℝ) (os fs : List ℕ), NumNonSOC x os fs c1 = NumNonSOC x os fs c2) ∧
    (∀ (x : List ℝ) (os fs : List ℕ),
      SOCSquareRoot x os fs c1 = SOCSquareRoot x os fs c2) ∧
    (∀ (x : List ℝ) (os fs : List ℕ), SOCInverse x os fs c1 = SOCInverse x os fs c2) ∧
    (∀ (x y : List ℝ) (os fs : List ℕ),
      SOCApply x y os fs c1 = SOCApply x y os fs c2) ∧
    (∀ (w x : List ℝ) (os fs : List ℕ),
      SOCApplyQuadratic w x os fs c1 = SOCApplyQuadratic w x os fs c2) ∧
    (∀ (s z : List ℝ) (os fs : List ℕ),
      SOCNesterovTodd s z os fs c1 = SOCNesterovTodd s z os fs c2) ∧
    (∀ (s z : List ℝ) (os fs : List ℕ) (U : ℝ),
      MaxStepInSOC s z os fs U c1 = MaxStepInSOC s z os fs U c2) := by
  refine ⟨?_, ?_, ?_, ?_, ?_, ?_, ?_, ?_, ?_⟩ <;> intros <;>
    simp only [SOCDets, SOCBroadcast, NumNonSOC, SOCSquareRoot, SOCInverse,
      SOCApply, SOCApplyQuadratic, SOCNesterovTodd, MaxStepInSOC,
      detAt_eq_detSeq, restDotAt_eq]

/-- Modelled from the spec: the driver-visible store of distributed vectors;
in-place utilities are modelled as explicit store updates, so that the frame
of every step is visible. -/
structure DriverStore where
  sVec : List ℝ
  sDets : List ℝ
  sDetsBcast : List ℝ

/-- `sDets := SOCDets(s, ...)`: a kernel call writing a fresh result vector. -/
noncomputable def runDetsStep (os fs : List ℕ) (cutoff : ℕ) (st : DriverStore) : DriverStore :=
  { st with sDets := SOCDets st.sVec os fs cutoff }

/-- `El.Copy(sDets, sDetsBcast)`: copy into the destination vector. -/
def runCopyStep (st : DriverStore) : DriverStore :=
  { st with sDetsBcast := st.sDets }

/-- `El.SOCBroadcast(sDetsBcast, ...)`: the explicitly in-place broadcast,
mutating only the vector it is applied to. -/
noncomputable def runBcastInPlaceStep (os fs : List ℕ) (cutoff : ℕ) (st : DriverStore) :
    DriverStore :=
  { st with sDetsBcast := SOCBroadcast st.sDetsBcast os fs cutoff }

/-- C9: no kernel operation mutates a caller-supplied vector: each step of the
driver sequence writes only its destination cell (the in-place broadcast
mutates only the vector it is applied to), and after copying `sDets` into
`sDetsBcast` and broadcasting `sDetsBcast` in place, `sDets` still holds its
original concentrated values `SOCDets s` while `s` is unchanged. -/
theorem kernel_no_mutation (os fs : List ℕ) (cutoff : ℕ) (st : DriverStore) :
    ((runDetsStep os fs cutoff st).sVec = st.sVec ∧
     (runDetsStep os fs cutoff st).sDetsBcast = st.sDetsBcast) ∧
    ((runCopyStep st).sVec = st.sVec ∧ (runCopyStep st).sDets = st.sDets) ∧
    ((runBcastInPlaceStep os fs cutoff st).sVec = st.sVec ∧
     (runBcastInPlaceStep os fs cutoff st).sDets = st.sDets) ∧
    (runBcastInPlaceStep os fs cutoff (runCopyStep (runDetsStep os fs cutoff st))).sDets =
      SOCDets st.sVec os fs cutoff ∧
    (runBcastInPlaceStep os fs cutoff (runCopyStep (runDetsStep os fs cutoff st))).sVec =
      st.sVec ∧
    (runBcastInPlaceStep os fs cutoff (runCopyStep (runDetsStep os fs cutoff st))).sDetsBcast =
      SOCBroadcast (SOCDets st.sVec os fs cutoff) os fs cutoff :=
  ⟨⟨rfl, rfl⟩, ⟨rfl, rfl⟩, ⟨rfl, rfl⟩, rfl, rfl, rfl⟩

section MaxStepSupport

/-- `p = s + alpha * z`, the vector the driver forms with `Copy` and `Axpy`. -/
def axpy (al : ℝ) (z s : List ℝ) : List ℝ :=
  List.zipWith (fun si zi => si + al * zi) s z

theorem axpy_getD (al : ℝ) (z s : List ℝ) (i : ℕ)
    (hi : i < s.length) (hlen : z.length = s.length) :
    (axpy al z s).getD i 0 = s.getD i 0 + al * z.getD i 0 := by
  have hl : (axpy al z s).length = s.length := by
    simp [axpy, hlen]
  have hiz : i < z.length := by omega
  rw [List.getD_eq_getElem _ _ (by rw [hl]; exact hi),
    List.getD_eq_getElem _ _ hi, List.getD_eq_getElem _ _ hiz]
  simp [axpy]

theorem blockRest_axpy (al : ℝ) (z s : List ℝ) (f ord : ℕ) :
    blockRest (axpy al z s) f ord =
      List.zipWith (fun si zi => si + al * zi)
        (blockRest s f ord) (blockRest z f ord) := by
  unfold blockRest axpy
  rw [List.drop_zipWith, List.take_zipWith]

theorem blockRest_length_eq {z s : List ℝ} (hlen : z.length = s.length)
    (f ord : ℕ) : (blockRest s f ord).length = (blockRest z f ord).length := by
  unfold blockRest
  simp [hlen]

theorem sumsq_nonneg (l : List ℝ) : 0 ≤ (l.map (fun t => t ^ 2)).sum := by
  apply List.sum_nonneg
  intro x hx
  obtain ⟨t, _, rfl⟩ := List.mem_map.1 hx
  positivity

theorem sumsq_axpy (al : ℝ) :
    ∀ (u v : List ℝ), u.length = v.length →
      ((List.zipWith (fun si zi => si + al * zi) u v).map (fun t => t ^ 2)).sum =
        (u.map (fun t => t ^ 2)).sum +
          2 * al * (List.zipWith (· * ·) u v).sum +
          al ^ 2 * (v.map (fun t => t ^ 2)).sum
  | [], [], _ => by simp
  | a :: u, b :: v, h => by
      have h' : u.length = v.length := by simpa using h
      simp only [List.zipWith_cons_cons, List.map_cons, List.sum_cons]
      rw [sumsq_axpy al u v h']
      ring

theorem list_cauchy_schwarz :
    ∀ (u v : List ℝ), u.length = v.length →
      (List.zipWith (· * ·) u v).sum ^ 2 ≤
        (u.map (fun t => t ^ 2)).sum * (v.map (fun t => t ^ 2)).sum
  | [], [], _ => by simp
  | a :: u, b :: v, h => by
      have h' : u.length = v.length := by simpa using h
      simp only [List.zipWith_cons_cons, List.map_cons, List.sum_cons]
      have ih := list_cauchy_schwarz u v h'
      set S := (List.zipWith (· * ·) u v).sum with hSdef
      set U := (u.map (fun t => t ^ 2)).sum with hUdef
      set V := (v.map (fun t => t ^ 2)).sum with hVdef
      have hU : 0 ≤ U := sumsq_nonneg u
      have hV : 0 ≤ V := sumsq_nonneg v
      rcases eq_or_lt_of_le hV with hV0 | hVpos
      · have hS2 : S ^ 2 ≤ 0 := by
          rw [← hV0] at ih
          simpa using ih
        have hS0 : S = 0 := by
          have := sq_nonneg S
          have h0 : S ^ 2 = 0 := le_antisymm hS2 this
          exact pow_eq_zero_iff (two_ne_zero) |>.1 h0
        rw [hS0, ← hV0]
        nlinarith [mul_nonneg hU (sq_nonneg b)]
      · nlinarith [sq_nonneg (a * V - b * S),
          mul_nonneg (sq_nonneg b) (sub_nonneg.2 ih),
          mul_nonneg (le_of_lt hVpos) (sub_nonneg.2 ih), hVpos]

theorem foldl_min_le_init (v : ℕ → ℝ) :
    ∀ (L : List ℕ) (c : ℝ), L.foldl (fun acc i => min acc (v i)) c ≤ c
  | [], c => le_refl c
  | a :: t, c => le_trans (foldl_min_le_init v t (min c (v a))) (min_le_left _ _)

theorem foldl_min_le_elem (v : ℕ → ℝ) :
    ∀ (L : List ℕ) (c : ℝ) (i : ℕ), i ∈ L →
      L.foldl (fun acc i => min acc (v i)) c ≤ v i
  | a :: t, c, i, hmem => by
      rcases List.mem_cons.1 hmem with h | h
      · subst h
        exact le_trans (foldl_min_le_init v t (min c (v i))) (min_le_right _ _)
      · exact foldl_min_le_elem v t (min c (v a)) i h

theorem le_foldl_min (v : ℕ → ℝ) :
    ∀ (L : List ℕ) (c b : ℝ), b ≤ c → (∀ i ∈ L, b ≤ v i) →
      b ≤ L.foldl (fun acc i => min acc (v i)) c
  | [], c, b, hb, _ => hb
  | a :: t, c, b, hb, hall =>
      le_foldl_min v t (min c (v a)) b
        (le_min hb (hall a (List.mem_cons_self a t)))
        (fun i hi => hall i (List.mem_cons_of_mem a hi))

/-- The quadratic form `N(beta) = ||s_rest + beta z_rest||^2` expressed through
the scalars `Ssq`, `Zsq`, `D` is nonnegative. -/
theorem normpart_nonneg (Ssq Zsq D be : ℝ) (hS : 0 ≤ Ssq) (hZ : 0 ≤ Zsq)
    (hCS : D ^ 2 ≤ Ssq * Zsq) : 0 ≤ Ssq + 2 * be * D + be ^ 2 * Zsq := by
  nlinarith [sq_nonneg (Ssq - be ^ 2 * Zsq),
    mul_le_mul_of_nonneg_left hCS (sq_nonneg (2 * be)),
    mul_nonneg (sq_nonneg be) hZ, mul_nonneg hS hZ, hS]

/-- If the norm part vanishes at `be ≠ 0`, the rest parts are proportional:
`Ssq = be^2 Zsq` and `D = -be Zsq`. -/
theorem normpart_zero_rel (Ssq Zsq D be : ℝ) (hS : 0 ≤ Ssq) (hZ : 0 ≤ Zsq)
    (hCS : D ^ 2 ≤ Ssq * Zsq) (hN : Ssq + 2 * be * D + be ^ 2 * Zsq = 0)
    (hbe : be ≠ 0) : Ssq = be ^ 2 * Zsq ∧ D = -be * Zsq := by
  have hA : Ssq + be ^ 2 * Zsq = -(2 * be * D) := by linarith
  have hA2 : (Ssq + be ^ 2 * Zsq) ^ 2 = (2 * be * D) ^ 2 := by
    rw [hA]
    ring
  have h1 : (Ssq - be ^ 2 * Zsq) ^ 2 ≤ 0 := by
    nlinarith [hA2, mul_le_mul_of_nonneg_left hCS (sq_nonneg (2 * be))]
  have hSeq : Ssq = be ^ 2 * Zsq := by
    have h0 : (Ssq - be ^ 2 * Zsq) ^ 2 = 0 := le_antisymm h1 (sq_nonneg _)
    have := pow_eq_zero_iff (two_ne_zero) |>.1 h0
    linarith
  refine ⟨hSeq, ?_⟩
  have h2 : (2 * be) * D = (2 * be) * (-be * Zsq) := by
    linear_combination hN - hSeq
  exact mul_left_cancel₀ (mul_ne_zero two_ne_zero hbe) h2

end MaxStepSupport

set_option maxHeartbeats 8000000 in
/-- Per-block analysis of the step bound: for a strictly interior `s`-block,
the value `r` returned by `stepBlockScal` is the largest `alpha` in `[0, U]`
keeping `s + alpha z` in the closed cone: `0 ≤ r ≤ U`, every `gam ∈ [0, r]`
keeps the block in the closed cone, and every feasible `be ∈ [0, U]` satisfies
`be ≤ r`. -/
theorem stepBlockScal_spec (s0 z0 Ssq Zsq D U : ℝ)
    (hS : 0 ≤ Ssq) (hZ : 0 ≤ Zsq) (hCS : D ^ 2 ≤ Ssq * Zsq)
    (hcc : 0 < s0 ^ 2 - Ssq) (hs0 : 0 < s0) (hU : 0 ≤ U) :
    0 ≤ stepBlockScal z0 (z0 ^ 2 - Zsq) (s0 * z0 - D) (s0 ^ 2 - Ssq) U ∧
    stepBlockScal z0 (z0 ^ 2 - Zsq) (s0 * z0 - D) (s0 ^ 2 - Ssq) U ≤ U ∧
    (∀ gam, 0 ≤ gam →
      gam ≤ stepBlockScal z0 (z0 ^ 2 - Zsq) (s0 * z0 - D) (s0 ^ 2 - Ssq) U →
      0 ≤ s0 + gam * z0 ∧
      0 ≤ (s0 + gam * z0) ^ 2 - (Ssq + 2 * gam * D + gam ^ 2 * Zsq)) ∧
    (∀ be, 0 ≤ be → be ≤ U → 0 ≤ s0 + be * z0 →
      0 ≤ (s0 + be * z0) ^ 2 - (Ssq + 2 * be * D + be ^ 2 * Zsq) →
      be ≤ stepBlockScal z0 (z0 ^ 2 - Zsq) (s0 * z0 - D) (s0 ^ 2 - Ssq) U) := by
  have hphi0 : ∀ t : ℝ, (s0 + t * z0) ^ 2 - (Ssq + 2 * t * D + t ^ 2 * Zsq) =
      (z0 ^ 2 - Zsq) * t ^ 2 + 2 * (s0 * z0 - D) * t + (s0 ^ 2 - Ssq) := by
    intro t
    ring
  unfold stepBlockScal
  by_cases hG : 0 ≤ z0 ∧ 0 ≤ z0 ^ 2 - Zsq
  · rw [if_pos hG]
    obtain ⟨hz0, ha⟩ := hG
    have hDle : D ≤ s0 * z0 := by
      nlinarith [hCS, mul_nonneg hs0.le hz0,
        mul_le_mul_of_nonneg_right (show Ssq ≤ s0 ^ 2 by linarith) hZ,
        mul_le_mul_of_nonneg_left (show Zsq ≤ z0 ^ 2 by linarith) (sq_nonneg s0)]
    refine ⟨hU, le_refl U, ?_, ?_⟩
    · intro gam h0 _
      constructor
      · nlinarith [mul_nonneg h0 hz0]
      · rw [hphi0 gam]
        nlinarith [mul_nonneg ha (sq_nonneg gam),
          mul_nonneg (show (0:ℝ) ≤ s0 * z0 - D by linarith) h0]
    · intro be _ hbeU _ _
      exact hbeU
  · rw [if_neg hG]
    by_cases ha0 : z0 ^ 2 - Zsq = 0
    · rw [if_pos ha0]
      have hz0neg : z0 < 0 := by
        rcases lt_or_ge z0 0 with h | h
        · exact h
        · exact absurd ⟨h, le_of_eq ha0.symm⟩ hG
      have hz0ne : z0 ≠ 0 := ne_of_lt hz0neg
      have hZeq : Zsq = z0 ^ 2 := by linarith
      have hZpos : 0 < Zsq := by
        rw [hZeq]
        nlinarith [mul_pos (neg_pos.2 hz0neg) (neg_pos.2 hz0neg)]
      have hbneg : s0 * z0 - D < 0 := by
        by_contra hb
        push_neg at hb
        nlinarith [hCS, hZeq, sq_nonneg (s0 * z0 - D),
          mul_nonneg hb (neg_nonneg.2 (mul_neg_of_pos_of_neg hs0 hz0neg).le),
          mul_lt_mul_of_pos_right (show Ssq < s0 ^ 2 by linarith) hZpos]
      have hne : (0:ℝ) < 2 * -(s0 * z0 - D) := by linarith
      have hr0pos0 : 0 < (s0 ^ 2 - Ssq) / (2 * -(s0 * z0 - D)) :=
        div_pos hcc hne
      generalize hr0def : (s0 ^ 2 - Ssq) / (2 * -(s0 * z0 - D)) = r0
      rw [hr0def] at hr0pos0
      have hkey1 : s0 ^ 2 - Ssq = r0 * (2 * -(s0 * z0 - D)) :=
        (div_eq_iff (ne_of_gt hne)).1 hr0def
      have hkey0 : 2 * (s0 * z0 - D) * r0 + (s0 ^ 2 - Ssq) = 0 := by
        linear_combination hkey1
      obtain ⟨ahat, hahatdef⟩ : ∃ t : ℝ, -(s0 / z0) = t := ⟨_, rfl⟩
      have hpsi0 : s0 + ahat * z0 = 0 := by
        rw [← hahatdef]
        field_simp
      have hahatpos : 0 < ahat := by
        rw [← hahatdef]
        exact neg_pos.2 (div_neg_of_pos_of_neg hs0 hz0neg)
      have hNh := normpart_nonneg Ssq Zsq D ahat hS hZ hCS
      have hphih : (z0 ^ 2 - Zsq) * ahat ^ 2 +
          2 * (s0 * z0 - D) * ahat + (s0 ^ 2 - Ssq) ≤ 0 := by
        rw [← hphi0 ahat, hpsi0]
        nlinarith [hNh]
      have ha0q : ∀ t : ℝ, (z0 ^ 2 - Zsq) * t ^ 2 = 0 := by
        intro t
        rw [ha0]
        ring
      have hr0le : r0 ≤ ahat := by
        nlinarith [hphih, ha0q ahat, hkey0, hbneg]
      refine ⟨le_min hU hr0pos0.le, min_le_left _ _, ?_, ?_⟩
      · intro gam h0 hle
        have hgr0 : gam ≤ r0 := le_trans hle (min_le_right _ _)
        constructor
        · nlinarith [hpsi0,
            mul_nonneg (sub_nonneg.2 (le_trans hgr0 hr0le))
              (show (0:ℝ) ≤ -z0 by linarith)]
        · rw [hphi0 gam]
          nlinarith [hkey0, ha0q gam,
            mul_nonneg (sub_nonneg.2 hgr0)
              (show (0:ℝ) ≤ -(s0 * z0 - D) by linarith)]
      · intro be _ hbeU _ hfeas
        have hquad := hfeas
        rw [hphi0 be] at hquad
        refine le_min hbeU ?_
        nlinarith [hquad, ha0q be, hkey0, hbneg]
    · rw [if_neg ha0]
      have hphi : ∀ t : ℝ, (s0 + t * z0) ^ 2 - (Ssq + 2 * t * D + t ^ 2 * Zsq) =
          (z0 ^ 2 - Zsq) * t ^ 2 + 2 * (s0 * z0 - D) * t + (s0 ^ 2 - Ssq) :=
        hphi0
      generalize hadef : z0 ^ 2 - Zsq = a
      rw [hadef] at hG ha0 hphi
      generalize hbdef : s0 * z0 - D = b
      rw [hbdef] at hphi
      generalize hccdef : s0 ^ 2 - Ssq = cc
      rw [hccdef] at hcc hphi
      generalize hdiscdef : b ^ 2 - a * cc = disc
      generalize hsddef : Real.sqrt disc = sd
      generalize hr1def : (-b - sd) / a = r1
      have hane : a ≠ 0 := ha0
      have haphi : ∀ t : ℝ, a * (a * t ^ 2 + 2 * b * t + cc) =
          (a * t + b) ^ 2 - disc := by
        intro t
        rw [← hdiscdef]
        ring
      have hsdnn : 0 ≤ sd := by
        rw [← hsddef]
        exact Real.sqrt_nonneg _
      have har1 : a * r1 + b = -sd := by
        rw [← hr1def]
        field_simp
        ring
      rcases lt_or_gt_of_ne hane with haneg | hapos
      · -- a < 0
        have hdiscpos : 0 < disc := by
          rw [← hdiscdef]
          nlinarith [mul_pos (neg_pos.2 haneg) hcc, sq_nonneg b]
        have hsd2 : sd ^ 2 = disc := by
          rw [← hsddef]
          exact Real.sq_sqrt hdiscpos.le
        have hblt : |b| < sd := by
          have h1 : b ^ 2 < disc := by
            rw [← hdiscdef]
            nlinarith [mul_pos (neg_pos.2 haneg) hcc]
          have h2 : Real.sqrt (b ^ 2) < sd := by
            rw [← hsddef]
            exact Real.sqrt_lt_sqrt (sq_nonneg b) h1
          rwa [Real.sqrt_sq_eq_abs] at h2
        have hblt1 : b < sd := lt_of_le_of_lt (le_abs_self b) hblt
        have hnegblt : -b < sd := lt_of_le_of_lt (neg_le_abs b) hblt
        have hr1pos : 0 < r1 := by
          rw [← hr1def]
          have hone : (-b - sd) / a = (b + sd) / -a := by
            rw [div_neg, ← neg_div]
            ring_nf
          rw [hone]
          exact div_pos (by linarith) (neg_pos.2 haneg)
        have hmem : ∀ gam, 0 ≤ gam → gam ≤ r1 →
            0 ≤ s0 + gam * z0 ∧
            0 ≤ (s0 + gam * z0) ^ 2 - (Ssq + 2 * gam * D + gam ^ 2 * Zsq) := by
          intro gam h0 hgle
          have hx1 : a * gam + b ≥ -sd := by
            have h9 : a * r1 ≤ a * gam := (mul_le_mul_left_of_neg haneg).2 hgle
            linarith [har1]
          have hx2 : a * gam + b < sd := by
            have h9 : a * gam ≤ 0 := mul_nonpos_of_nonpos_of_nonneg haneg.le h0
            linarith [hblt1]
          have hsqb : (a * gam + b) ^ 2 ≤ sd ^ 2 := by
            nlinarith [hx1, hx2, hsdnn]
          have hmul : a * (a * gam ^ 2 + 2 * b * gam + cc) ≤ 0 := by
            rw [haphi gam]
            linarith [hsd2, hsqb]
          have hphig : 0 ≤ a * gam ^ 2 + 2 * b * gam + cc := by
            by_contra hcon
            push_neg at hcon
            linarith [mul_pos_of_neg_of_neg haneg hcon]
          refine ⟨?_, by rw [hphi gam]; exact hphig⟩
          rcases le_or_lt 0 z0 with hz0 | hz0neg
          · nlinarith [mul_nonneg h0 hz0]
          · have hz0ne : z0 ≠ 0 := ne_of_lt hz0neg
            obtain ⟨ahat, hahatdef⟩ : ∃ t : ℝ, -(s0 / z0) = t := ⟨_, rfl⟩
            have hpsi0 : s0 + ahat * z0 = 0 := by
              rw [← hahatdef]
              field_simp
            have hahatpos : 0 < ahat := by
              rw [← hahatdef]
              exact neg_pos.2 (div_neg_of_pos_of_neg hs0 hz0neg)
            have hNh := normpart_nonneg Ssq Zsq D ahat hS hZ hCS
            have hphih : a * ahat ^ 2 + 2 * b * ahat + cc ≤ 0 := by
              rw [← hphi ahat, hpsi0]
              linarith [hNh]
            have hsqge : (a * ahat + b) ^ 2 ≥ disc := by
              have h9 : 0 ≤ a * (a * ahat ^ 2 + 2 * b * ahat + cc) := by
                have h8 := mul_nonneg (neg_nonneg.2 haneg.le) (neg_nonneg.2 hphih)
                rwa [neg_mul_neg] at h8
              rw [haphi ahat] at h9
              linarith
            have hcase : a * ahat + b ≤ -sd := by
              by_contra hcon
              push_neg at hcon
              have h5 : a * ahat + b ≥ sd := by
                have h9 : sd ^ 2 ≤ (a * ahat + b) ^ 2 := by
                  rw [hsd2]
                  exact hsqge
                have h10 := Real.sqrt_le_sqrt h9
                rw [Real.sqrt_sq hsdnn, Real.sqrt_sq_eq_abs] at h10
                rcases abs_cases (a * ahat + b) with he | he
                · linarith [h10, he.1]
                · linarith [h10, he.1, hcon]
              have h6 : a * ahat ≤ 0 :=
                mul_nonpos_of_nonpos_of_nonneg haneg.le hahatpos.le
              linarith [hblt1]
            have hr1hat : r1 ≤ ahat := by
              have h9 : a * ahat ≤ a * r1 := by linarith [har1]
              exact (mul_le_mul_left_of_neg haneg).1 h9
            have h9 : ahat * z0 ≤ gam * z0 :=
              (mul_le_mul_right_of_neg hz0neg).2 (le_trans hgle hr1hat)
            linarith [hpsi0]
        refine ⟨le_min hU hr1pos.le, min_le_left _ _, ?_, ?_⟩
        · intro gam h0 hle
          exact hmem gam h0 (le_trans hle (min_le_right _ _))
        · intro be _ hbeU _ hfeas
          have hquad := hfeas
          rw [hphi be] at hquad
          have hx : a * be + b ≥ -sd := by
            have h9 : a * (a * be ^ 2 + 2 * b * be + cc) ≤ 0 :=
              mul_nonpos_of_nonpos_of_nonneg haneg.le hquad
            rw [haphi be] at h9
            have h10 : (a * be + b) ^ 2 ≤ sd ^ 2 := by linarith [hsd2]
            have h11 := Real.sqrt_le_sqrt h10
            rw [Real.sqrt_sq_eq_abs, Real.sqrt_sq hsdnn] at h11
            exact le_trans (neg_le_neg h11) (neg_abs_le _)
          refine le_min hbeU ?_
          have h9 : a * be ≥ a * r1 := by linarith [har1]
          exact (mul_le_mul_left_of_neg haneg).1 h9
      · -- a > 0
        have hz0neg : z0 < 0 := by
          by_contra h
          push_neg at h
          exact hG ⟨h, hapos.le⟩
        have hz0ne : z0 ≠ 0 := ne_of_lt hz0neg
        have hz2pos : 0 < z0 ^ 2 := by
          have h9 := mul_pos (neg_pos.2 hz0neg) (neg_pos.2 hz0neg)
          rw [neg_mul_neg] at h9
          linarith [h9]
        have hZlt : Zsq < z0 ^ 2 := by
          have h8 := hadef
          linarith [hapos]
        have hbneg : b < 0 := by
          rw [← hbdef]
          by_contra hb
          push_neg at hb
          have hsz : s0 * z0 < 0 := mul_neg_of_pos_of_neg hs0 hz0neg
          have h1 : s0 * z0 + D ≤ 0 := by linarith [hb, hsz]
          have h2 : (s0 * z0 - D) * (s0 * z0 + D) ≤ 0 :=
            mul_nonpos_of_nonneg_of_nonpos hb h1
          have h3 : Ssq * Zsq ≤ Ssq * z0 ^ 2 :=
            mul_le_mul_of_nonneg_left hZlt.le hS
          have h4 : Ssq * z0 ^ 2 < s0 ^ 2 * z0 ^ 2 :=
            mul_lt_mul_of_pos_right (show Ssq < s0 ^ 2 by linarith) hz2pos
          linarith [hCS, h2, h3, h4]
        obtain ⟨ahat, hahatdef⟩ : ∃ t : ℝ, -(s0 / z0) = t := ⟨_, rfl⟩
        have hpsi0 : s0 + ahat * z0 = 0 := by
          rw [← hahatdef]
          field_simp
        have hahatpos : 0 < ahat := by
          rw [← hahatdef]
          exact neg_pos.2 (div_neg_of_pos_of_neg hs0 hz0neg)
        have hNh := normpart_nonneg Ssq Zsq D ahat hS hZ hCS
        have hphih : a * ahat ^ 2 + 2 * b * ahat + cc ≤ 0 := by
          rw [← hphi ahat, hpsi0]
          linarith [hNh]
        have hdisc_nonneg : 0 ≤ disc := by
          have h9 : a * (a * ahat ^ 2 + 2 * b * ahat + cc) ≤ 0 :=
            mul_nonpos_of_nonneg_of_nonpos hapos.le hphih
          rw [haphi ahat] at h9
          linarith [sq_nonneg (a * ahat + b)]
        have hsd2 : sd ^ 2 = disc := by
          rw [← hsddef]
          exact Real.sq_sqrt hdisc_nonneg
        have hsdltnb : sd < -b := by
          have h1 : disc < b ^ 2 := by
            rw [← hdiscdef]
            linarith [mul_pos hapos hcc]
          have h2 : sd < Real.sqrt (b ^ 2) := by
            rw [← hsddef]
            exact Real.sqrt_lt_sqrt hdisc_nonneg h1
          rwa [Real.sqrt_sq_eq_abs, abs_of_neg hbneg] at h2
        have hr1pos : 0 < r1 := by
          rw [← hr1def]
          exact div_pos (by linarith) hapos
        have hsqle : (a * ahat + b) ^ 2 ≤ disc := by
          have h9 : a * (a * ahat ^ 2 + 2 * b * ahat + cc) ≤ 0 :=
            mul_nonpos_of_nonneg_of_nonpos hapos.le hphih
          rw [haphi ahat] at h9
          linarith
        have hhatge : r1 ≤ ahat := by
          have hge : a * ahat + b ≥ -sd := by
            have h19 : (a * ahat + b) ^ 2 ≤ sd ^ 2 := by
              rw [hsd2]
              exact hsqle
            have h20 := Real.sqrt_le_sqrt h19
            rw [Real.sqrt_sq_eq_abs, Real.sqrt_sq hsdnn] at h20
            exact le_trans (neg_le_neg h20) (neg_abs_le _)
          have h9 : a * r1 ≤ a * ahat := by linarith [har1]
          exact (mul_le_mul_left hapos).1 h9
        have hmem : ∀ gam, 0 ≤ gam → gam ≤ r1 →
            0 ≤ s0 + gam * z0 ∧
            0 ≤ (s0 + gam * z0) ^ 2 - (Ssq + 2 * gam * D + gam ^ 2 * Zsq) := by
          intro gam h0 hgle
          have hx1 : a * gam + b ≤ -sd := by
            have h9 : a * gam ≤ a * r1 := (mul_le_mul_left hapos).2 hgle
            linarith [har1]
          have hsqb : sd ^ 2 ≤ (a * gam + b) ^ 2 := by
            have h9 : 0 ≤ (-(a * gam + b) - sd) * (-(a * gam + b) + sd) :=
              mul_nonneg (by linarith [hx1]) (by linarith [hx1, hsdnn])
            linarith [h9]
          have hmul : 0 ≤ a * (a * gam ^ 2 + 2 * b * gam + cc) := by
            rw [haphi gam]
            linarith [hsd2]
          have hphig : 0 ≤ a * gam ^ 2 + 2 * b * gam + cc := by
            by_contra hcon
            push_neg at hcon
            linarith [mul_neg_of_pos_of_neg hapos hcon]
          refine ⟨?_, by rw [hphi gam]; exact hphig⟩
          have h9 : ahat * z0 ≤ gam * z0 :=
            (mul_le_mul_right_of_neg hz0neg).2 (le_trans hgle hhatge)
          linarith [hpsi0]
        refine ⟨le_min hU hr1pos.le, min_le_left _ _, ?_, ?_⟩
        · intro gam h0 hle
          exact hmem gam h0 (le_trans hle (min_le_right _ _))
        · intro be hbe0 hbeU hpsib hfeas
          have hquad := hfeas
          rw [hphi be] at hquad
          have hsqge : (a * be + b) ^ 2 ≥ disc := by
            have h9 : 0 ≤ a * (a * be ^ 2 + 2 * b * be + cc) :=
              mul_nonneg hapos.le hquad
            rw [haphi be] at h9
            linarith
          by_cases hle2 : a * be + b ≤ -sd
          · refine le_min hbeU ?_
            have h9 : a * be ≤ a * r1 := by linarith [har1]
            exact (mul_le_mul_left hapos).1 h9
          · push_neg at hle2
            have hbe_ge : a * be + b ≥ sd := by
              have h9 : sd ^ 2 ≤ (a * be + b) ^ 2 := by
                rw [hsd2]
                exact hsqge
              have h10 := Real.sqrt_le_sqrt h9
              rw [Real.sqrt_sq hsdnn, Real.sqrt_sq_eq_abs] at h10
              rcases abs_cases (a * be + b) with he | he
              · linarith [h10, he.1]
              · linarith [h10, he.1, hle2]
            have hbe_ahat : be ≤ ahat := by
              have h9 : ahat * z0 ≤ be * z0 := by linarith [hpsi0, hpsib]
              exact (mul_le_mul_right_of_neg hz0neg).1 h9
            have hahat_le : a * ahat + b ≤ sd := by
              have h19 : (a * ahat + b) ^ 2 ≤ sd ^ 2 := by
                rw [hsd2]
                exact hsqle
              have h20 := Real.sqrt_le_sqrt h19
              rw [Real.sqrt_sq_eq_abs, Real.sqrt_sq hsdnn] at h20
              exact le_trans (le_abs_self _) h20
            have hbeq : be = ahat := by
              apply le_antisymm hbe_ahat
              have h9 : a * ahat ≤ a * be := by linarith
              exact (mul_le_mul_left hapos).1 h9
            have hpsi_be : s0 + be * z0 = 0 := by
              rw [hbeq]
              exact hpsi0
            have hbene : be ≠ 0 := by
              rw [hbeq]
              exact ne_of_gt hahatpos
            have hNbe := normpart_nonneg Ssq Zsq D be hS hZ hCS
            have hN0 : Ssq + 2 * be * D + be ^ 2 * Zsq = 0 := by
              have h7 := hfeas
              rw [hpsi_be] at h7
              linarith [h7, hNbe]
            obtain ⟨hSeq, hDeq⟩ :=
              normpart_zero_rel Ssq Zsq D be hS hZ hCS hN0 hbene
            have hb2 : b = -be * a := by
              rw [← hbdef, ← hadef]
              linear_combination z0 * hpsi_be - hDeq
            have hcc2 : cc = be ^ 2 * a := by
              rw [← hccdef, ← hadef]
              linear_combination (s0 - be * z0) * hpsi_be - hSeq
            have hdisc0 : disc = 0 := by
              rw [← hdiscdef, hb2, hcc2]
              ring
            have hsd0 : sd = 0 := by
              rw [← hsddef, hdisc0, Real.sqrt_zero]
            have hr1be : r1 = be := by
              rw [← hr1def, hsd0, hb2]
              field_simp
            exact le_min hbeU (le_of_eq hr1be.symm)

/-- Per-block step bound over the flat layer: instantiation of
`stepBlockScal_spec` with the block scalars read from the flat vectors. -/
theorem stepBlock_flat_spec (cutoff : ℕ) (s z : List ℝ) (os : List ℕ) (U : ℝ)
    (i : ℕ) (hlen : z.length = s.length) (hi : i < s.length)
    (hs0 : 0 < s.getD i 0) (hdet : 0 < detSeq s i (os.getD i 0)) (hU : 0 ≤ U) :
    0 ≤ stepBlockScal (z.getD i 0) (detAt cutoff z i (os.getD i 0))
        (s.getD i 0 * z.getD i 0 - restDotAt cutoff s z i (os.getD i 0))
        (detAt cutoff s i (os.getD i 0)) U ∧
    stepBlockScal (z.getD i 0) (detAt cutoff z i (os.getD i 0))
        (s.getD i 0 * z.getD i 0 - restDotAt cutoff s z i (os.getD i 0))
        (detAt cutoff s i (os.getD i 0)) U ≤ U ∧
    (∀ gam, 0 ≤ gam →
      gam ≤ stepBlockScal (z.getD i 0) (detAt cutoff z i (os.getD i 0))
        (s.getD i 0 * z.getD i 0 - restDotAt cutoff s z i (os.getD i 0))
        (detAt cutoff s i (os.getD i 0)) U →
      0 ≤ (axpy gam z s).getD i 0 ∧
      0 ≤ detSeq (axpy gam z s) i (os.getD i 0)) ∧
    (∀ be, 0 ≤ be → be ≤ U → 0 ≤ (axpy be z s).getD i 0 →
      0 ≤ detSeq (axpy be z s) i (os.getD i 0) →
      be ≤ stepBlockScal (z.getD i 0) (detAt cutoff z i (os.getD i 0))
        (s.getD i 0 * z.getD i 0 - restDotAt cutoff s z i (os.getD i 0))
        (detAt cutoff s i (os.getD i 0)) U) := by
  have hlb : (blockRest s i (os.getD i 0)).length =
      (blockRest z i (os.getD i 0)).length :=
    blockRest_length_eq hlen i (os.getD i 0)
  have hS := sumsq_nonneg (blockRest s i (os.getD i 0))
  have hZ := sumsq_nonneg (blockRest z i (os.getD i 0))
  have hCS := list_cauchy_schwarz (blockRest s i (os.getD i 0))
    (blockRest z i (os.getD i 0)) hlb
  have hcc : 0 < s.getD i 0 ^ 2 -
      ((blockRest s i (os.getD i 0)).map (fun t => t ^ 2)).sum := by
    unfold detSeq at hdet
    exact hdet
  have hz : detAt cutoff z i (os.getD i 0) = z.getD i 0 ^ 2 -
      ((blockRest z i (os.getD i 0)).map (fun t => t ^ 2)).sum := by
    rw [detAt_eq_detSeq]
    rfl
  have hsd : detAt cutoff s i (os.getD i 0) = s.getD i 0 ^ 2 -
      ((blockRest s i (os.getD i 0)).map (fun t => t ^ 2)).sum := by
    rw [detAt_eq_detSeq]
    rfl
  have hrd : restDotAt cutoff s z i (os.getD i 0) =
      (List.zipWith (· * ·) (blockRest s i (os.getD i 0))
        (blockRest z i (os.getD i 0))).sum :=
    restDotAt_eq cutoff s z i (os.getD i 0)
  have hdseq : ∀ gam : ℝ, detSeq (axpy gam z s) i (os.getD i 0) =
      (s.getD i 0 + gam * z.getD i 0) ^ 2 -
        (((blockRest s i (os.getD i 0)).map (fun t => t ^ 2)).sum +
          2 * gam * (List.zipWith (· * ·) (blockRest s i (os.getD i 0))
            (blockRest z i (os.getD i 0))).sum +
          gam ^ 2 * ((blockRest z i (os.getD i 0)).map (fun t => t ^ 2)).sum) := by
    intro gam
    unfold detSeq
    rw [axpy_getD gam z s i hi hlen, blockRest_axpy,
      sumsq_axpy gam (blockRest s i (os.getD i 0))
        (blockRest z i (os.getD i 0)) hlb]
  obtain ⟨m1, m2, m3, m4⟩ := stepBlockScal_spec (s.getD i 0) (z.getD i 0)
    (((blockRest s i (os.getD i 0)).map (fun t => t ^ 2)).sum)
    (((blockRest z i (os.getD i 0)).map (fun t => t ^ 2)).sum)
    ((List.zipWith (· * ·) (blockRest s i (os.getD i 0))
      (blockRest z i (os.getD i 0))).sum)
    U hS hZ hCS hcc hs0 hU
  rw [hz, hsd, hrd]
  refine ⟨m1, m2, ?_, ?_⟩
  · intro gam h0 hle
    obtain ⟨w1, w2⟩ := m3 gam h0 hle
    refine ⟨?_, ?_⟩
    · rw [axpy_getD gam z s i hi hlen]
      exact w1
    · rw [hdseq gam]
      exact w2
  · intro be h0 hbU h1 h2
    rw [axpy_getD be z s i hi hlen] at h1
    rw [hdseq be] at h2
    exact m4 be h0 hbU h1 h2

/-- C3: `MaxStepInSOC(s, z, orders, firstInds, upperBound, cutoff)` returns the
largest `alpha` in `[0, upperBound]` such that `s + alpha * z` stays in the
closed product cone: the result lies in `[0, upperBound]`; for every
`gam ≤ alpha` and every block, `s + gam * z` has nonnegative scalar part and
nonnegative Jordan determinant (in particular at `alpha` itself, so
`det(s + alpha z) ≥ 0` for every block); every `be ∈ [0, upperBound]` keeping
all blocks in the closed cone satisfies `be ≤ alpha`; and `upperBound` is
returned when no block binds below it. -/
theorem MaxStepInSOC_spec (s z : List ℝ) (os fs : List ℕ) (U : ℝ) (cutoff : ℕ)
    (hlen : z.length = s.length)
    (hint : ∀ i, i < s.length → fs.getD i 0 = i →
      0 < s.getD i 0 ∧ 0 < detSeq s i (os.getD i 0))
    (hU : 0 ≤ U) :
    0 ≤ MaxStepInSOC s z os fs U cutoff ∧
    MaxStepInSOC s z os fs U cutoff ≤ U ∧
    (∀ gam, 0 ≤ gam → gam ≤ MaxStepInSOC s z os fs U cutoff →
      ∀ i, i < s.length → fs.getD i 0 = i →
        0 ≤ (axpy gam z s).getD i 0 ∧
        0 ≤ detSeq (axpy gam z s) i (os.getD i 0)) ∧
    (∀ be, 0 ≤ be → be ≤ U →
      (∀ i, i < s.length → fs.getD i 0 = i →
        0 ≤ (axpy be z s).getD i 0 ∧
        0 ≤ detSeq (axpy be z s) i (os.getD i 0)) →
      be ≤ MaxStepInSOC s z os fs U cutoff) ∧
    ((∀ i, i < s.length → fs.getD i 0 = i →
        0 ≤ (axpy U z s).getD i 0 ∧
        0 ≤ detSeq (axpy U z s) i (os.getD i 0)) →
      MaxStepInSOC s z os fs U cutoff = U) := by
  have hmemf : ∀ i ∈ (List.range s.length).filter (fun i => fs.getD i 0 == i),
      i < s.length ∧ fs.getD i 0 = i := by
    intro i hiL
    rcases List.mem_filter.1 hiL with ⟨h1, h2⟩
    exact ⟨List.mem_range.1 h1, by simpa using h2⟩
  have hfmem : ∀ i, i < s.length → fs.getD i 0 = i →
      i ∈ (List.range s.length).filter (fun i => fs.getD i 0 == i) := by
    intro i hi hfi
    exact List.mem_filter.2 ⟨List.mem_range.2 hi, by simpa using hfi⟩
  have hbl : ∀ i, i < s.length → fs.getD i 0 = i →
      0 ≤ stepBlockScal (z.getD i 0) (detAt cutoff z i (os.getD i 0))
          (s.getD i 0 * z.getD i 0 - restDotAt cutoff s z i (os.getD i 0))
          (detAt cutoff s i (os.getD i 0)) U ∧
      stepBlockScal (z.getD i 0) (detAt cutoff z i (os.getD i 0))
          (s.getD i 0 * z.getD i 0 - restDotAt cutoff s z i (os.getD i 0))
          (detAt cutoff s i (os.getD i 0)) U ≤ U ∧
      (∀ gam, 0 ≤ gam →
        gam ≤ stepBlockScal (z.getD i 0) (detAt cutoff z i (os.getD i 0))
          (s.getD i 0 * z.getD i 0 - restDotAt cutoff s z i (os.getD i 0))
          (detAt cutoff s i (os.getD i 0)) U →
        0 ≤ (axpy gam z s).getD i 0 ∧
        0 ≤ detSeq (axpy gam z s) i (os.getD i 0)) ∧
      (∀ be, 0 ≤ be → be ≤ U → 0 ≤ (axpy be z s).getD i 0 →
        0 ≤ detSeq (axpy be z s) i (os.getD i 0) →
        be ≤ stepBlockScal (z.getD i 0) (detAt cutoff z i (os.getD i 0))
          (s.getD i 0 * z.getD i 0 - restDotAt cutoff s z i (os.getD i 0))
          (detAt cutoff s i (os.getD i 0)) U) :=
    fun i hi hfi => stepBlock_flat_spec cutoff s z os U i hlen hi
      (hint i hi hfi).1 (hint i hi hfi).2 hU
  have h1 : 0 ≤ MaxStepInSOC s z os fs U cutoff := by
    unfold MaxStepInSOC
    exact le_foldl_min (fun i => stepBlockScal (z.getD i 0)
        (detAt cutoff z i (os.getD i 0))
        (s.getD i 0 * z.getD i 0 - restDotAt cutoff s z i (os.getD i 0))
        (detAt cutoff s i (os.getD i 0)) U)
      ((List.range s.length).filter (fun i => fs.getD i 0 == i)) U 0 hU
      (fun i hiL => (hbl i (hmemf i hiL).1 (hmemf i hiL).2).1)
  have h2 : MaxStepInSOC s z os fs U cutoff ≤ U := by
    unfold MaxStepInSOC
    exact foldl_min_le_init (fun i => stepBlockScal (z.getD i 0)
        (detAt cutoff z i (os.getD i 0))
        (s.getD i 0 * z.getD i 0 - restDotAt cutoff s z i (os.getD i 0))
        (detAt cutoff s i (os.getD i 0)) U)
      ((List.range s.length).filter (fun i => fs.getD i 0 == i)) U
  have h3 : ∀ gam, 0 ≤ gam → gam ≤ MaxStepInSOC s z os fs U cutoff →
      ∀ i, i < s.length → fs.getD i 0 = i →
        0 ≤ (axpy gam z s).getD i 0 ∧
        0 ≤ detSeq (axpy gam z s) i (os.getD i 0) := by
    intro gam h0 hle i hi hfi
    have hstep : MaxStepInSOC s z os fs U cutoff ≤
        stepBlockScal (z.getD i 0) (detAt cutoff z i (os.getD i 0))
          (s.getD i 0 * z.getD i 0 - restDotAt cutoff s z i (os.getD i 0))
          (detAt cutoff s i (os.getD i 0)) U := by
      unfold MaxStepInSOC
      exact foldl_min_le_elem (fun i => stepBlockScal (z.getD i 0)
          (detAt cutoff z i (os.getD i 0))
          (s.getD i 0 * z.getD i 0 - restDotAt cutoff s z i (os.getD i 0))
          (detAt cutoff s i (os.getD i 0)) U)
        ((List.range s.length).filter (fun i => fs.getD i 0 == i)) U i
        (hfmem i hi hfi)
    exact (hbl i hi hfi).2.2.1 gam h0 (le_trans hle hstep)
  have h4 : ∀ be, 0 ≤ be → be ≤ U →
      (∀ i, i < s.length → fs.getD i 0 = i →
        0 ≤ (axpy be z s).getD i 0 ∧
        0 ≤ detSeq (axpy be z s) i (os.getD i 0)) →
      be ≤ MaxStepInSOC s z os fs U cutoff := by
    intro be h0 hbU hfeas
    unfold MaxStepInSOC
    refine le_foldl_min (fun i => stepBlockScal (z.getD i 0)
        (detAt cutoff z i (os.getD i 0))
        (s.getD i 0 * z.getD i 0 - restDotAt cutoff s z i (os.getD i 0))
        (detAt cutoff s i (os.getD i 0)) U)
      ((List.range s.length).filter (fun i => fs.getD i 0 == i)) U be hbU ?_
    intro i hiL
    obtain ⟨hi, hfi⟩ := hmemf i hiL
    exact (hbl i hi hfi).2.2.2 be h0 hbU (hfeas i hi hfi).1 (hfeas i hi hfi).2
  exact ⟨h1, h2, h3, h4, fun hfeas => le_antisymm h2 (h4 U hU le_rfl hfeas)⟩

theorem MaxStepInSOC_spec_witness :
    0 ≤ MaxStepInSOC [2, 0] [-1, 0] [2, 2] [0, 0] 100 1000 ∧
    MaxStepInSOC [2, 0] [-1, 0] [2, 2] [0, 0] 100 1000 ≤ 100 := by
  have h := MaxStepInSOC_spec [2, 0] [-1, 0] [2, 2] [0, 0] 100 1000
    (by rfl)
    (by
      intro i hi hfi
      have hi2 : i < 2 := by simpa using hi
      interval_cases i
      · refine ⟨by norm_num, ?_⟩
        norm_num [detSeq, blockRest]
      · exact absurd hfi (by decide))
    (by norm_num)
  exact ⟨h.1, h.2.1⟩

end SOC
